import Mathlib

/-!
# VEIL: TLS record wrapper, sequence encoding, key schedule and updater versions

Shallow embeddings of `src/common/protocol_wrapper/tls_wrapper.{h,cpp}`, of the
sequence encoding loops of `experiments/cross_platform_crypto_test.cpp` and of
`Version`, `ReleaseInfo::find_installer` and the update decision in
`src/common/updater/auto_updater.cpp`, a model of the key schedule and the
sequence obfuscation after the specification, and theorems about them.
All definitions come first, the theorems follow.

Conventions of the embedding:

* `std::uint8_t` is `Fin 256`, `std::uint16_t` is `Fin 65536`; every arithmetic
  step is carried out on the underlying natural number and narrowed again by an
  explicit `% 2^w` (`to_u8`, `to_u16`), as `static_cast` does.
* `std::size_t` values (sizes, offsets) are natural numbers.
* `std::span<const std::uint8_t>` and `std::vector<std::uint8_t>` are `List U8`.
* `std::optional<T>` is `Option T` (`std::nullopt` is `none`).
* A loop becomes a recursive function over the loop's local variables.
-/

namespace veil.protocol_wrapper

/-- The type `std::uint8_t`. -/
abbrev U8 := Fin 256

/-- The type `std::uint16_t`. -/
abbrev U16 := Fin 65536

/-- Narrowing conversion `static_cast<std::uint8_t>(n)`. -/
def to_u8 (n : Nat) : U8 := ⟨n % 256, Nat.mod_lt n (by decide)⟩

/-- Narrowing conversion `static_cast<std::uint16_t>(n)`. -/
def to_u16 (n : Nat) : U16 := ⟨n % 65536, Nat.mod_lt n (by decide)⟩

/-- The scoped enumeration `TLSContentType : std::uint8_t`. A value of the
enumeration may hold any `std::uint8_t` (as after the `static_cast` in
`parse_header`), so it is represented by its underlying byte. -/
abbrev TLSContentType := U8

/-- Enumerator `kChangeCipherSpec = 0x14`. -/
def kChangeCipherSpec : TLSContentType := 0x14

/-- Enumerator `kAlert = 0x15`. -/
def kAlert : TLSContentType := 0x15

/-- Enumerator `kHandshake = 0x16`. -/
def kHandshake : TLSContentType := 0x16

/-- Enumerator `kApplicationData = 0x17`. -/
def kApplicationData : TLSContentType := 0x17

/-- The struct `TLSRecordHeader` with its default member initialisers. -/
structure TLSRecordHeader where
  content_type : TLSContentType := kApplicationData
  legacy_version : U16 := 0x0303
  length : U16 := 0
  deriving DecidableEq, Repr

/-- Constant `kMaxTLSRecordPayload = 16384`. -/
def kMaxTLSRecordPayload : Nat := 16384

/-- Constant `kTLSRecordHeaderSize = 5`. -/
def kTLSRecordHeaderSize : Nat := 5

/-- Element access `data[i]` of a span. The callers check the size before they
read; an index outside the span (undefined behaviour in the source) reads 0. -/
def at_index (data : List U8) (i : Nat) : U8 := data.getD i 0

/-- Iterator range `[begin + lo, begin + hi)` of a span, copied out. -/
def slice (data : List U8) (lo hi : Nat) : List U8 := (data.take hi).drop lo

/-- Function `write_be_u16`: two `push_back`s, most significant byte first. -/
def write_be_u16 (out : List U8) (value : U16) : List U8 :=
  let out := out ++ [to_u8 ((value.val >>> 8) &&& 0xFF)]
  out ++ [to_u8 (value.val &&& 0xFF)]

/-- Function `read_be_u16`: `(data[offset] << 8) | data[offset + 1]`, narrowed
to 16 bits. -/
def read_be_u16 (data : List U8) (offset : Nat) : U16 :=
  to_u16 (((at_index data offset).val <<< 8) ||| (at_index data (offset + 1)).val)

/-- Method `TLSWrapper::build_header`. -/
def build_header (header : TLSRecordHeader) : List U8 :=
  let result : List U8 := []
  let result := result ++ [header.content_type]
  let result := write_be_u16 result header.legacy_version
  let result := write_be_u16 result header.length
  result

/-- Method `TLSWrapper::parse_header`. -/
def parse_header (data : List U8) : Option (TLSRecordHeader × Nat) :=
  if data.length < kTLSRecordHeaderSize then
    none
  else
    let header : TLSRecordHeader :=
      { content_type := at_index data 0
        legacy_version := read_be_u16 data 1
        length := read_be_u16 data 3 }
    if header.content_type = kChangeCipherSpec ∨ header.content_type = kAlert ∨
        header.content_type = kHandshake ∨ header.content_type = kApplicationData then
      if header.length.val > kMaxTLSRecordPayload then
        none
      else
        some (header, kTLSRecordHeaderSize)
    else
      none

/-- The `do ... while (offset < data.size())` loop of `TLSWrapper::wrap`, as a
function of the loop variables `offset` and `result`. One call is one pass
through the loop body followed by the loop test. -/
def wrap_loop (data : List U8) (offset : Nat) (result : List U8) : List U8 :=
  let chunk_size := min kMaxTLSRecordPayload (data.length - offset)
  let header : TLSRecordHeader :=
    { content_type := kApplicationData
      legacy_version := 0x0303
      length := to_u16 chunk_size }
  let header_bytes := build_header header
  let result := result ++ header_bytes
  let result := result ++ slice data offset (offset + chunk_size)
  let offset' := offset + chunk_size
  if offset' < data.length then
    wrap_loop data offset' result
  else
    result
termination_by data.length - offset
decreasing_by
  simp only [kMaxTLSRecordPayload] at *
  omega

/-- Method `TLSWrapper::wrap`. The `reserve` call on `result` sets a capacity
only and leaves the contents unchanged, so it has no counterpart here. -/
def wrap (data : List U8) : List U8 :=
  wrap_loop data 0 []

/-- Method `TLSWrapper::unwrap`. -/
def unwrap (record : List U8) : Option (List U8) :=
  match parse_header record with
  | none => none
  | some (header, payload_offset) =>
    if header.content_type ≠ kApplicationData then
      none
    else if record.length < payload_offset + header.length.val then
      none
    else
      some (slice record payload_offset (payload_offset + header.length.val))

/-- The `while (offset < data.size())` loop of `TLSWrapper::unwrap_all`, as a
function of the loop variables `offset` and `result`. -/
def unwrap_all_loop (data : List U8) (offset : Nat) (result : List U8) :
    Option (List U8) :=
  if offset < data.length then
    let remaining := data.drop offset
    match _hp : parse_header remaining with
    | none => none
    | some (header, payload_offset) =>
      if header.content_type ≠ kApplicationData then
        none
      else if remaining.length < payload_offset + header.length.val then
        none
      else
        unwrap_all_loop data (offset + (payload_offset + header.length.val))
          (result ++ slice remaining payload_offset (payload_offset + header.length.val))
  else
    some result
termination_by data.length - offset
decreasing_by
  have h5 : payload_offset = 5 := by
    unfold parse_header at _hp
    split at _hp
    · exact absurd _hp (by simp)
    · dsimp only at _hp
      split at _hp
      · split at _hp
        · exact absurd _hp (by simp)
        · simp only [Option.some.injEq, Prod.mk.injEq] at _hp
          exact _hp.2.symm
      · exact absurd _hp (by simp)
  omega

/-- Method `TLSWrapper::unwrap_all`. -/
def unwrap_all (data : List U8) : Option (List U8) :=
  unwrap_all_loop data 0 []

/-- Reference definition from the specification of the wrapper ("emit a 5-byte
header `0x17 0x03 0x03 len_hi len_lo` followed by the chunk"): the record that
carries one chunk. -/
def spec_record (chunk : List U8) : List U8 :=
  [0x17, 0x03, 0x03, to_u8 (chunk.length / 256), to_u8 (chunk.length % 256)] ++ chunk

/-! ## Checked transcription

The same functions once more, with every element access and every iterator
range checked against the size of the span, and with the loops limited to a
number of passes (`fuel`). A run ends in `.error` when it reads outside the
span or needs more passes than allowed, and in `.ok` with the returned value
otherwise. -/

/-- The ways in which a checked run can go wrong. -/
inductive Fault where
  | out_of_bounds
  | out_of_fuel
  deriving DecidableEq, Repr

/-- Element access `data[i]`, checked. -/
def at_index_checked (data : List U8) (i : Nat) : Except Fault U8 :=
  if i < data.length then .ok (at_index data i) else .error .out_of_bounds

/-- Iterator range `[begin + lo, begin + hi)`, checked. -/
def slice_checked (data : List U8) (lo hi : Nat) : Except Fault (List U8) :=
  if lo ≤ hi ∧ hi ≤ data.length then .ok (slice data lo hi) else .error .out_of_bounds

/-- Call `data.subspan(offset)`, checked. -/
def subspan_checked (data : List U8) (offset : Nat) : Except Fault (List U8) :=
  if offset ≤ data.length then .ok (data.drop offset) else .error .out_of_bounds

/-- Function `read_be_u16` with its two element accesses checked. -/
def read_be_u16_checked (data : List U8) (offset : Nat) : Except Fault U16 :=
  match at_index_checked data offset, at_index_checked data (offset + 1) with
  | .ok hi, .ok lo => .ok (to_u16 ((hi.val <<< 8) ||| lo.val))
  | _, _ => .error .out_of_bounds

/-- Method `TLSWrapper::parse_header` with checked reads. -/
def parse_header_checked (data : List U8) : Except Fault (Option (TLSRecordHeader × Nat)) :=
  if data.length < kTLSRecordHeaderSize then
    .ok none
  else
    match at_index_checked data 0, read_be_u16_checked data 1, read_be_u16_checked data 3 with
    | .ok content_type, .ok legacy_version, .ok length =>
      let header : TLSRecordHeader :=
        { content_type := content_type, legacy_version := legacy_version, length := length }
      if header.content_type = kChangeCipherSpec ∨ header.content_type = kAlert ∨
          header.content_type = kHandshake ∨ header.content_type = kApplicationData then
        if header.length.val > kMaxTLSRecordPayload then
          .ok none
        else
          .ok (some (header, kTLSRecordHeaderSize))
      else
        .ok none
    | _, _, _ => .error .out_of_bounds

/-- Method `TLSWrapper::unwrap` with checked reads. -/
def unwrap_checked (record : List U8) : Except Fault (Option (List U8)) :=
  match parse_header_checked record with
  | .error e => .error e
  | .ok none => .ok none
  | .ok (some (header, payload_offset)) =>
    if header.content_type ≠ kApplicationData then
      .ok none
    else if record.length < payload_offset + header.length.val then
      .ok none
    else
      match slice_checked record payload_offset (payload_offset + header.length.val) with
      | .error e => .error e
      | .ok payload => .ok (some payload)

/-- The loop of `TLSWrapper::wrap` with the copied range checked, for at most
`fuel` passes through the body. -/
def wrap_loop_checked (data : List U8) : Nat → Nat → List U8 → Except Fault (List U8)
  | 0, _, _ => .error .out_of_fuel
  | fuel + 1, offset, result =>
    let chunk_size := min kMaxTLSRecordPayload (data.length - offset)
    let header : TLSRecordHeader :=
      { content_type := kApplicationData
        legacy_version := 0x0303
        length := to_u16 chunk_size }
    let header_bytes := build_header header
    let result := result ++ header_bytes
    match slice_checked data offset (offset + chunk_size) with
    | .error e => .error e
    | .ok chunk =>
      let result := result ++ chunk
      let offset' := offset + chunk_size
      if offset' < data.length then
        wrap_loop_checked data fuel offset' result
      else
        .ok result

/-- Method `TLSWrapper::wrap`, checked, for at most `fuel` passes. -/
def wrap_checked (fuel : Nat) (data : List U8) : Except Fault (List U8) :=
  wrap_loop_checked data fuel 0 []

/-- The loop of `TLSWrapper::unwrap_all` with checked reads, for at most `fuel`
evaluations of the loop condition. -/
def unwrap_all_loop_checked (data : List U8) :
    Nat → Nat → List U8 → Except Fault (Option (List U8))
  | 0, _, _ => .error .out_of_fuel
  | fuel + 1, offset, result =>
    if offset < data.length then
      match subspan_checked data offset with
      | .error e => .error e
      | .ok remaining =>
        match parse_header_checked remaining with
        | .error e => .error e
        | .ok none => .ok none
        | .ok (some (header, payload_offset)) =>
          if header.content_type ≠ kApplicationData then
            .ok none
          else if remaining.length < payload_offset + header.length.val then
            .ok none
          else
            match slice_checked remaining payload_offset
                (payload_offset + header.length.val) with
            | .error e => .error e
            | .ok payload =>
              unwrap_all_loop_checked data fuel (offset + (payload_offset + header.length.val))
                (result ++ payload)
    else
      .ok (some result)

/-- Method `TLSWrapper::unwrap_all`, checked, for at most `fuel` evaluations of
the loop condition. -/
def unwrap_all_checked (fuel : Nat) (data : List U8) : Except Fault (Option (List U8)) :=
  unwrap_all_loop_checked data fuel 0 []

end veil.protocol_wrapper

/-! # Sequence encoding of the cross-platform test

The two loops of `test_sequence_encoding_big_endian` in
`experiments/cross_platform_crypto_test.cpp`, as functions of the sequence
number (the test runs them on `0x0102030405060708`). -/

namespace veil.experiments

open veil.protocol_wrapper

/-- The type `std::uint64_t`. -/
abbrev U64 := Fin 18446744073709551616

/-- Narrowing conversion to `std::uint64_t`: arithmetic modulo `2^64`. -/
def to_u64 (n : Nat) : U64 := ⟨n % 18446744073709551616, Nat.mod_lt n (by decide)⟩

/-- The encoding loop `for (int i = 7; i >= 0; --i)` with the body
`encoded[7 - i] = static_cast<std::uint8_t>((test_seq >> (8 * i)) & 0xFF)`, as a
function of the loop counter `i` and of the vector `encoded`. -/
def encode_loop (test_seq : U64) : Nat → List U8 → List U8
  | 0, encoded => encoded.set (7 - 0) (to_u8 ((test_seq.val >>> (8 * 0)) &&& 0xFF))
  | i + 1, encoded =>
    encode_loop test_seq i
      (encoded.set (7 - (i + 1)) (to_u8 ((test_seq.val >>> (8 * (i + 1))) &&& 0xFF)))

/-- The encoding of a sequence number: `std::vector<std::uint8_t> encoded(8)`
(eight zero bytes) filled by the encoding loop, which starts at `i = 7`. -/
def encode_sequence (test_seq : U64) : List U8 :=
  encode_loop test_seq 7 (List.replicate 8 0)

/-- The decoding loop `for (int i = 0; i < 8; ++i)` with the body
`decoded = (decoded << 8) | encoded[i]` in 64-bit unsigned arithmetic, as a
function of the number of iterations left, of `i` and of `decoded`. -/
def decode_loop (encoded : List U8) : Nat → Nat → U64 → U64
  | 0, _, decoded => decoded
  | left + 1, i, decoded =>
    decode_loop encoded left (i + 1)
      (to_u64 ((to_u64 (decoded.val <<< 8)).val ||| (at_index encoded i).val))

/-- The decoding of eight bytes: `decoded` starts at 0 and the loop runs for
`i = 0 .. 7`. -/
def decode_sequence (encoded : List U8) : U64 :=
  decode_loop encoded 8 0 0

end veil.experiments

/-! # Key schedule and sequence obfuscation

`crypto::obfuscate_sequence`, `crypto::deobfuscate_sequence` and
`crypto::derive_session_keys` are defined in `common/crypto/crypto_engine`,
which is not among the sources; `experiments/cross_platform_crypto_test.cpp`
only calls them. They are modelled from the specification. -/

namespace veil.crypto

open veil.protocol_wrapper veil.experiments

/-- A key of `kAeadKeyLen = 32` bytes, `std::array<std::uint8_t, 32>`. -/
abbrev Key32 := Fin 32 → U8

/-- Bitwise exclusive or of two 64-bit values. -/
def xor_u64 (a b : U64) : U64 := to_u64 (a.val ^^^ b.val)

/-- Modelled from the spec: the function `crypto::obfuscate_sequence`, whose
definition is missing from the sources. The specification describes it as "a
key-specific XOR" on the sequence number ("The source's obfuscation function
uses big-endian seq encoding with a key-specific XOR"). The derivation of the
64-bit value from the key is not specified; it is the parameter `key_mask`. -/
def obfuscate_sequence (key_mask : Key32 → U64) (seq : U64) (key : Key32) : U64 :=
  xor_u64 seq (key_mask key)

/-- Modelled from the spec: the function `crypto::deobfuscate_sequence`, whose
definition is missing from the sources. "Deobfuscation repeats the XOR." -/
def deobfuscate_sequence (key_mask : Key32 → U64) (obf : U64) (key : Key32) : U64 :=
  xor_u64 obf (key_mask key)

/-- The struct `SessionKeys`, with the members that the cross-platform test
reads. -/
structure SessionKeys where
  send_key : List U8
  recv_key : List U8
  send_nonce : List U8
  recv_nonce : List U8
  deriving DecidableEq, Repr

/-- The info label `"veil-session-v1"` of the key schedule, as bytes. -/
def session_info_label : List U8 :=
  "veil-session-v1".toList.map (fun c => to_u8 c.toNat)

/-- Modelled from the spec: the function `crypto::derive_session_keys`, whose
definition is missing from the sources. "Compute a single HKDF extract with
salt=PSK and IKM=shared_secret, then expand with info-string
`info || "veil-session-v1"` to produce an 88-byte block: 32 bytes A, 32 bytes B,
12 bytes NA, 12 bytes NB. Assignment by role: initiator: send_key=A, recv_key=B,
send_nonce=NA, recv_nonce=NB; responder: send_key=B, recv_key=A, send_nonce=NB,
recv_nonce=NA." HKDF-SHA-256 comes from a library; its two steps are the
parameters `hkdf_extract salt ikm` and `hkdf_expand prk info length`. -/
def derive_session_keys (hkdf_extract : List U8 → List U8 → List U8)
    (hkdf_expand : List U8 → List U8 → Nat → List U8)
    (shared_secret psk info : List U8) (is_initiator : Bool) : SessionKeys :=
  let prk := hkdf_extract psk shared_secret
  let block := hkdf_expand prk (info ++ session_info_label) 88
  let key_a := slice block 0 32
  let key_b := slice block 32 64
  let nonce_a := slice block 64 76
  let nonce_b := slice block 76 88
  if is_initiator then
    { send_key := key_a, recv_key := key_b, send_nonce := nonce_a, recv_nonce := nonce_b }
  else
    { send_key := key_b, recv_key := key_a, send_nonce := nonce_b, recv_nonce := nonce_a }

end veil.crypto

/-! # Versions of the updater

`Version` of `src/common/updater/auto_updater.cpp`. A `std::string` is a list of
characters; an `int` is an integer (`std::stoi` keeps the values within
`INT_MAX`). `std::regex` and `std::stoi` are library code: the regular
expression of `Version::parse` is written as a syntax tree and matched by a
backtracking matcher with the greedy ECMAScript semantics, which recurses once
for every character it matches and so works within the depth that the stack
allows. -/

namespace veil.updater

/-- The struct `Version`. Its declaration in `auto_updater.h` is not among the
sources; the members are those that `auto_updater.cpp` reads and writes: three
`int`s and the `std::string prerelease`, which is empty by default. -/
structure Version where
  major : Int
  minor : Int
  patch : Int
  prerelease : List Char := []
  deriving DecidableEq, Repr

/-- The comparison `operator<` of `std::string`: lexicographic on the
characters, and a string is smaller than each of its proper extensions. -/
def string_lt : List Char → List Char → Bool
  | [], [] => false
  | [], _ :: _ => true
  | _ :: _, [] => false
  | a :: as, b :: bs =>
    if a < b then true
    else if b < a then false
    else string_lt as bs

/-- Method `Version::operator<`. -/
def Version.lt (self other : Version) : Bool :=
  if self.major ≠ other.major then decide (self.major < other.major)
  else if self.minor ≠ other.minor then decide (self.minor < other.minor)
  else if self.patch ≠ other.patch then decide (self.patch < other.patch)
  else if self.prerelease.isEmpty && !other.prerelease.isEmpty then false
  else if !self.prerelease.isEmpty && other.prerelease.isEmpty then true
  else string_lt self.prerelease other.prerelease

end veil.updater

/-! # Releases and the update decision

`ReleaseInfo::find_installer` and the decision of
`AutoUpdater::check_for_updates_sync` in `src/common/updater/auto_updater.cpp`.
The structs are declared in `auto_updater.h`, which is not among the sources;
their members are those that `auto_updater.cpp` reads and writes. -/

namespace veil.updater

/-- Method `Version::operator>`. -/
def Version.gt (self other : Version) : Bool := other.lt self

/-- Method `Version::operator==`. -/
def Version.eq (self other : Version) : Bool :=
  decide (self.major = other.major) && decide (self.minor = other.minor) &&
    decide (self.patch = other.patch) && decide (self.prerelease = other.prerelease)

/-- The struct `ReleaseAsset`. The type of `size` is an integer type that plays
no part here. -/
structure ReleaseAsset where
  name : List Char
  download_url : List Char
  content_type : List Char
  size : Nat
  deriving DecidableEq, Repr

/-- The struct `ReleaseInfo`. -/
structure ReleaseInfo where
  tag_name : List Char
  name : List Char
  body : List Char
  published_at : List Char
  html_url : List Char
  prerelease : Bool
  draft : Bool
  version : Version
  assets : List ReleaseAsset
  deriving DecidableEq, Repr

/-- The function `::tolower` in the "C" locale: the letters `A`..`Z` become
`a`..`z`, every other character stays. -/
def tolower (c : Char) : Char := c.toLower

/-- Whether `text` begins with `pattern`. -/
def starts_with : List Char → List Char → Bool
  | _, [] => true
  | [], _ :: _ => false
  | x :: xs, y :: ys => x == y && starts_with xs ys

/-- The method `std::string::find` with a string argument: the first position
at which `pattern` occurs in `text`, and `none` for `std::string::npos`. -/
def string_find : List Char → List Char → Option Nat
  | [], pattern => if starts_with [] pattern then some 0 else none
  | x :: xs, pattern =>
    if starts_with (x :: xs) pattern then some 0
    else (string_find xs pattern).map (fun pos => pos + 1)

/-- The inner loop of `find_installer`, `for (const auto& pattern : patterns)`:
whether it reaches `return asset`. -/
def some_pattern_found (name_lower : List Char) : List (List Char) → Bool
  | [] => false
  | pattern :: rest =>
    if (string_find name_lower pattern).isSome then true
    else some_pattern_found name_lower rest

/-- The outer loop of `find_installer`, `for (const auto& asset : assets)`. -/
def find_installer_loop (patterns : List (List Char)) :
    List ReleaseAsset → Option ReleaseAsset
  | [] => none
  | asset :: rest =>
    let name_lower := asset.name.map tolower
    if (string_find name_lower ("linux".toList)).isSome ||
        (string_find name_lower ("macos".toList)).isSome ||
        (string_find name_lower ("darwin".toList)).isSome then
      find_installer_loop patterns rest
    else if some_pattern_found name_lower patterns then
      some asset
    else
      find_installer_loop patterns rest

/-- Method `ReleaseInfo::find_installer`. -/
def ReleaseInfo.find_installer (self : ReleaseInfo) : Option ReleaseAsset :=
  let patterns : List (List Char) :=
    [".exe".toList, ".msi".toList, "-setup".toList, "-win64".toList]
  find_installer_loop patterns self.assets

/-- Reference definition for the assets that `find_installer` looks for: the
lower-cased name contains none of `linux`, `macos`, `darwin` and contains at
least one of `.exe`, `.msi`, `-setup`, `-win64`. -/
def is_windows_installer (asset : ReleaseAsset) : Prop :=
  (¬ "linux".toList <:+: asset.name.map Char.toLower ∧
    ¬ "macos".toList <:+: asset.name.map Char.toLower ∧
    ¬ "darwin".toList <:+: asset.name.map Char.toLower) ∧
  (".exe".toList <:+: asset.name.map Char.toLower ∨
    ".msi".toList <:+: asset.name.map Char.toLower ∨
    "-setup".toList <:+: asset.name.map Char.toLower ∨
    "-win64".toList <:+: asset.name.map Char.toLower)

/-- The members of `UpdateConfig` that the update decision reads. -/
structure UpdateConfig where
  check_for_prereleases : Bool
  deriving DecidableEq, Repr

/-- The state of an `AutoUpdater` that the update decision reads and writes:
`config_`, `ignored_versions_`, `cached_release_` and `impl_->last_check_time`. -/
structure AutoUpdater where
  config_ : UpdateConfig
  ignored_versions_ : List Version
  cached_release_ : Option ReleaseInfo
  last_check_time : List Char
  deriving DecidableEq, Repr

/-- The values of the macros `VEIL_VERSION_MAJOR`, `VEIL_VERSION_MINOR`,
`VEIL_VERSION_PATCH` and `VEIL_VERSION_PRERELEASE`, which the build sets. -/
structure VersionMacros where
  VEIL_VERSION_MAJOR : Int
  VEIL_VERSION_MINOR : Int
  VEIL_VERSION_PATCH : Int
  VEIL_VERSION_PRERELEASE : List Char
  deriving DecidableEq, Repr

/-- Method `AutoUpdater::current_version`. -/
def current_version (macros : VersionMacros) : Version :=
  { major := macros.VEIL_VERSION_MAJOR
    minor := macros.VEIL_VERSION_MINOR
    patch := macros.VEIL_VERSION_PATCH
    prerelease := macros.VEIL_VERSION_PRERELEASE }

/-- The call `std::find(first, last, version)` on a vector of versions, which
compares with `Version::operator==`: whether the result is not `last`. -/
def find_version : List Version → Version → Bool
  | [], _ => false
  | v :: rest, version => if v.eq version then true else find_version rest version

/-- Method `AutoUpdater::is_version_ignored`. -/
def AutoUpdater.is_version_ignored (self : AutoUpdater) (version : Version) : Bool :=
  find_version self.ignored_versions_ version

/-- Method `AutoUpdater::check_for_updates_sync`, as a function of the state of
the updater that returns the result and the new state. The first part of the
method is network and library code (the HTTP request, the JSON parser and the
clock); its outcome is the parameter `fetched`: `none` when the method returns
`std::nullopt` before it has a release (empty response, exception of the
parser, tag that `Version::parse` rejects), and `some (release, now)` with the
parsed release and the text of the current time otherwise. Logging and the
error callback are left out. -/
def AutoUpdater.check_for_updates_sync (self : AutoUpdater) (macros : VersionMacros)
    (fetched : Option (ReleaseInfo × List Char)) : Option ReleaseInfo × AutoUpdater :=
  match fetched with
  | none => (none, self)
  | some (release, now) =>
    let self := { self with last_check_time := now }
    let current := current_version macros
    if release.prerelease && !self.config_.check_for_prereleases then
      (none, self)
    else if self.is_version_ignored release.version then
      (none, self)
    else if release.version.gt current then
      (some release, { self with cached_release_ := some release })
    else
      (none, self)

end veil.updater

namespace veil.protocol_wrapper

/-- Reference definition for "two buffers that differ only in bytes 1 and 2 of
record headers". Either the buffers are the same; or they start with headers
that agree but for the two version bytes and go on with the same bytes; or they
start with such headers, carry the same complete payload of the length that the
header announces, and go on with buffers that are related in the same way. -/
inductive differ_in_versions : List U8 → List U8 → Prop where
  | same (x : List U8) : differ_in_versions x x
  | header (t v1 v2 w1 w2 l1 l2 : U8) (tail : List U8) :
      differ_in_versions (t :: v1 :: v2 :: l1 :: l2 :: tail) (t :: w1 :: w2 :: l1 :: l2 :: tail)
  | record (t v1 v2 w1 w2 l1 l2 : U8) (payload rest rest' : List U8) :
      payload.length = l1.val * 256 + l2.val →
      differ_in_versions rest rest' →
      differ_in_versions (t :: v1 :: v2 :: l1 :: l2 :: (payload ++ rest))
        (t :: w1 :: w2 :: l1 :: l2 :: (payload ++ rest'))

end veil.protocol_wrapper

namespace veil.protocol_wrapper

/-! ## Arithmetic of the byte conversions -/

theorem shl8_or_eq (a b : Nat) (hb : b < 256) : (a <<< 8) ||| b = a * 256 + b := by
  have h := Nat.mul_add_lt_is_or (show b < 2 ^ 8 from hb) a
  rw [Nat.shiftLeft_eq, ← Nat.mul_comm (2 ^ 8) a, ← h]

theorem shr8_and_eq (v : Nat) : (v >>> 8) &&& 0xFF = v / 256 % 256 := by
  have h := Nat.and_pow_two_sub_one_eq_mod (v >>> 8) 8
  rw [Nat.shiftRight_eq_div_pow] at *
  norm_num at h ⊢
  exact h

theorem and_ff_eq (v : Nat) : v &&& 0xFF = v % 256 := by
  have h := Nat.and_pow_two_sub_one_eq_mod v 8
  norm_num at h ⊢
  exact h

theorem read_be_u16_val (data : List U8) (offset : Nat) :
    (read_be_u16 data offset).val =
      (at_index data offset).val * 256 + (at_index data (offset + 1)).val := by
  unfold read_be_u16 to_u16
  simp only []
  rw [shl8_or_eq _ _ (at_index data (offset + 1)).isLt]
  have h1 := (at_index data offset).isLt
  have h2 := (at_index data (offset + 1)).isLt
  omega

theorem write_be_u16_eq (out : List U8) (value : U16) :
    write_be_u16 out value = out ++ [to_u8 (value.val / 256), to_u8 (value.val % 256)] := by
  unfold write_be_u16
  have e1 : to_u8 ((value.val >>> 8) &&& 0xFF) = to_u8 (value.val / 256) := by
    rw [shr8_and_eq]
    apply Fin.ext
    simp [to_u8]
  have e2 : to_u8 (value.val &&& 0xFF) = to_u8 (value.val % 256) := by
    rw [and_ff_eq]
  simp only [e1, e2, List.append_assoc, List.singleton_append]

theorem build_header_eq (h : TLSRecordHeader) :
    build_header h =
      [h.content_type, to_u8 (h.legacy_version.val / 256), to_u8 (h.legacy_version.val % 256),
        to_u8 (h.length.val / 256), to_u8 (h.length.val % 256)] := by
  unfold build_header
  simp [write_be_u16_eq]

/-! ## `parse_header` and `unwrap` in closed form -/

theorem parse_header_eq (d : List U8) :
    parse_header d =
      if 5 ≤ d.length ∧
          (at_index d 0 = 0x14 ∨ at_index d 0 = 0x15 ∨ at_index d 0 = 0x16 ∨ at_index d 0 = 0x17) ∧
          (at_index d 3).val * 256 + (at_index d 4).val ≤ 16384 then
        some ({ content_type := at_index d 0
                legacy_version := read_be_u16 d 1
                length := read_be_u16 d 3 }, 5)
      else none := by
  unfold parse_header
  simp only [kTLSRecordHeaderSize, kMaxTLSRecordPayload, kChangeCipherSpec, kAlert, kHandshake,
    kApplicationData, read_be_u16_val]
  by_cases h1 : d.length < 5
  · rw [if_pos h1, if_neg (by omega)]
  · rw [if_neg h1]
    by_cases h2 : (at_index d 0 = 0x14 ∨ at_index d 0 = 0x15 ∨ at_index d 0 = 0x16 ∨
        at_index d 0 = 0x17)
    · rw [if_pos h2]
      by_cases h3 : (at_index d 3).val * 256 + (at_index d 4).val > 16384
      · rw [if_pos h3, if_neg (by omega)]
      · rw [if_neg h3, if_pos ⟨by omega, h2, by omega⟩]
    · rw [if_neg h2, if_neg (fun h => h2 h.2.1)]

theorem unwrap_eq (r : List U8) :
    unwrap r =
      if 5 ≤ r.length ∧ at_index r 0 = 0x17 ∧
          (at_index r 3).val * 256 + (at_index r 4).val ≤ 16384 ∧
          5 + ((at_index r 3).val * 256 + (at_index r 4).val) ≤ r.length then
        some (slice r 5 (5 + ((at_index r 3).val * 256 + (at_index r 4).val)))
      else none := by
  unfold unwrap
  rw [parse_header_eq]
  by_cases h : 5 ≤ r.length ∧
      (at_index r 0 = 0x14 ∨ at_index r 0 = 0x15 ∨ at_index r 0 = 0x16 ∨ at_index r 0 = 0x17) ∧
      (at_index r 3).val * 256 + (at_index r 4).val ≤ 16384
  · rw [if_pos h]
    simp only [kApplicationData, read_be_u16_val, ne_eq, ite_not]
    by_cases h0 : at_index r 0 = 0x17
    · rw [if_pos h0]
      by_cases hl : r.length < 5 + ((at_index r 3).val * 256 + (at_index r 4).val)
      · rw [if_pos hl, if_neg (by omega)]
      · rw [if_neg hl, if_pos ⟨h.1, h0, h.2.2, by omega⟩]
    · rw [if_neg h0, if_neg (fun c => h0 c.2.1)]
  · rw [if_neg h]
    simp only []
    rw [if_neg]
    intro c
    exact h ⟨c.1, Or.inr (Or.inr (Or.inr c.2.1)), c.2.2.1⟩

/-- A successful `parse_header` reports the payload offset 5. -/
theorem parse_header_offset {data : List U8} {header : TLSRecordHeader} {off : Nat}
    (h : parse_header data = some (header, off)) : off = 5 := by
  rw [parse_header_eq] at h
  split at h
  · simp only [Option.some.injEq, Prod.mk.injEq] at h
    exact h.2.symm
  · exact absurd h (by simp)

/-! ## The loop of `wrap` -/

theorem slice_zero (data : List U8) (n : Nat) : slice data 0 n = data.take n := by
  simp [slice]

theorem slice_drop (data : List U8) (offset c : Nat) :
    slice data offset (offset + c) = (data.drop offset).take c := by
  unfold slice
  rw [List.drop_take]
  congr 1
  omega

/-- One pass through the body of the loop of `wrap`, with the header written out. -/
theorem wrap_loop_unfold (data : List U8) (offset : Nat) (result : List U8) :
    wrap_loop data offset result =
      if offset + min 16384 (data.length - offset) < data.length then
        wrap_loop data (offset + min 16384 (data.length - offset))
          (result ++ [0x17, 0x03, 0x03, to_u8 (min 16384 (data.length - offset) / 256),
              to_u8 (min 16384 (data.length - offset) % 256)] ++
            (data.drop offset).take (min 16384 (data.length - offset)))
      else
        result ++ [0x17, 0x03, 0x03, to_u8 (min 16384 (data.length - offset) / 256),
            to_u8 (min 16384 (data.length - offset) % 256)] ++
          (data.drop offset).take (min 16384 (data.length - offset)) := by
  rw [wrap_loop]
  simp only [kMaxTLSRecordPayload, build_header_eq, slice_drop, kApplicationData]
  have hc : (to_u16 (min 16384 (data.length - offset))).val = min 16384 (data.length - offset) := by
    simp only [to_u16]
    omega
  have hv : ((0x0303 : U16).val / 256 = 3) ∧ ((0x0303 : U16).val % 256 = 3) := by decide
  rw [hc, hv.1, hv.2]
  have h3 : to_u8 3 = 3 := by decide
  rw [h3]

/-- Running the loop of `wrap` from `offset` with accumulator `result` appends to
`result` what `wrap` produces for the rest of the data. -/
theorem wrap_loop_drop (n : Nat) : ∀ (data : List U8) (offset : Nat) (result : List U8),
    data.length - offset ≤ n → offset ≤ data.length →
      wrap_loop data offset result = result ++ wrap (data.drop offset) := by
  induction n with
  | zero =>
    intro data offset result hn hle
    have hlen : data.length - offset = 0 := by omega
    have hd : data.drop offset = [] := by
      apply List.drop_eq_nil_of_le
      omega
    unfold wrap
    rw [wrap_loop_unfold data offset, wrap_loop_unfold (data.drop offset) 0, hd, hlen]
    simp
    omega
  | succ n ih =>
    intro data offset result hn hle
    unfold wrap
    rw [wrap_loop_unfold data offset, wrap_loop_unfold (data.drop offset) 0]
    simp only [List.length_drop, Nat.sub_zero, Nat.zero_add, List.drop_zero, List.nil_append]
    by_cases hlt : offset + min 16384 (data.length - offset) < data.length
    · have hlt2 : min 16384 (data.length - offset) < data.length - offset := by omega
      rw [if_pos hlt, if_pos hlt2]
      rw [ih data _ _ (by omega) (by omega)]
      rw [ih (data.drop offset) _ _ (by simp only [List.length_drop]; omega)
        (by simp only [List.length_drop]; omega)]
      simp only [List.drop_drop, List.append_assoc]
    · have hlt2 : ¬ min 16384 (data.length - offset) < data.length - offset := by omega
      rw [if_neg hlt, if_neg hlt2]
      simp only [List.append_assoc]

/-- Closed form of `wrap` on an input that fits in one record. -/
theorem wrap_small (D : List U8) (h : D.length ≤ 16384) :
    wrap D = [0x17, 0x03, 0x03, to_u8 (D.length / 256), to_u8 (D.length % 256)] ++ D := by
  unfold wrap
  rw [wrap_loop_unfold]
  simp only [Nat.sub_zero, Nat.zero_add, List.drop_zero, List.nil_append]
  have hm : min 16384 D.length = D.length := by omega
  rw [hm, if_neg (by omega), List.take_length]

/-- Recursion equation of `wrap` on an input that needs more than one record. -/
theorem wrap_large (D : List U8) (h : 16384 < D.length) :
    wrap D = [0x17, 0x03, 0x03, 0x40, 0x00] ++ D.take 16384 ++ wrap (D.drop 16384) := by
  have hm : min 16384 D.length = 16384 := by omega
  have hw : wrap D = wrap_loop D 0 [] := rfl
  rw [hw, wrap_loop_unfold]
  simp only [Nat.sub_zero, Nat.zero_add, List.drop_zero, List.nil_append]
  rw [hm, if_pos h, wrap_loop_drop D.length D 16384 _ (by omega) (by omega)]
  rfl

/-! ## The loop of `unwrap_all` -/

theorem slice_length (r : List U8) (lo hi : Nat) (h : hi ≤ r.length) :
    (slice r lo hi).length = hi - lo := by
  simp [slice]
  omega

/-- A payload returned by `unwrap` has the length announced in the header, and
the record holds it completely. -/
theorem unwrap_some_length {r p : List U8} (h : unwrap r = some p) :
    p.length = (at_index r 3).val * 256 + (at_index r 4).val ∧ 5 + p.length ≤ r.length ∧
      p = slice r 5 (5 + p.length) := by
  rw [unwrap_eq] at h
  split at h
  · rename_i hc
    simp only [Option.some.injEq] at h
    have hl := slice_length r 5 _ hc.2.2.2
    rw [h] at hl
    have hp : p.length = (at_index r 3).val * 256 + (at_index r 4).val := by omega
    refine ⟨hp, by omega, ?_⟩
    rw [hp]
    exact h.symm
  · exact absurd h (by simp)

/-- One pass through the loop of `unwrap_all`, written with `unwrap`: the body
of the loop performs the checks of `unwrap` on the remaining bytes. -/
theorem unwrap_all_loop_unfold (data : List U8) (offset : Nat) (result : List U8) :
    unwrap_all_loop data offset result =
      if offset < data.length then
        match unwrap (data.drop offset) with
        | none => none
        | some p => unwrap_all_loop data (offset + (5 + p.length)) (result ++ p)
      else some result := by
  rw [unwrap_all_loop]
  by_cases hlt : offset < data.length
  · rw [if_pos hlt, if_pos hlt]
    simp only []
    split
    · rename_i hp
      have hu : unwrap (data.drop offset) = none := by
        unfold unwrap
        rw [hp]
      rw [hu]
    · rename_i header payload_offset hp
      have h5 : payload_offset = 5 := parse_header_offset hp
      subst h5
      by_cases hct : header.content_type ≠ kApplicationData
      · have hu : unwrap (data.drop offset) = none := by
          unfold unwrap
          rw [hp]
          simp only []
          rw [if_pos hct]
        rw [hu, if_pos hct]
      · rw [if_neg hct]
        by_cases hl : (data.drop offset).length < 5 + header.length.val
        · have hu : unwrap (data.drop offset) = none := by
            unfold unwrap
            rw [hp]
            simp only []
            rw [if_neg hct, if_pos hl]
          rw [hu, if_pos hl]
        · have hu : unwrap (data.drop offset) =
              some (slice (data.drop offset) 5 (5 + header.length.val)) := by
            unfold unwrap
            rw [hp]
            simp only []
            rw [if_neg hct, if_neg hl]
          rw [hu, if_neg hl]
          simp only []
          rw [slice_length _ _ _ (by omega)]
          congr 2
          omega
  · rw [if_neg hlt, if_neg hlt]

/-- Running the loop of `unwrap_all` from `offset` with accumulator `result`
gives `result` followed by what `unwrap_all` returns for the rest of the data. -/
theorem unwrap_all_loop_drop (n : Nat) : ∀ (data : List U8) (offset : Nat) (result : List U8),
    data.length - offset ≤ n →
      unwrap_all_loop data offset result =
        (unwrap_all (data.drop offset)).map (fun rest => result ++ rest) := by
  induction n with
  | zero =>
    intro data offset result hn
    have hd : data.drop offset = [] := by
      apply List.drop_eq_nil_of_le
      omega
    unfold unwrap_all
    rw [unwrap_all_loop_unfold data offset, unwrap_all_loop_unfold (data.drop offset) 0, hd,
      if_neg (by omega), if_neg (by simp)]
    simp
  | succ n ih =>
    intro data offset result hn
    unfold unwrap_all
    rw [unwrap_all_loop_unfold data offset, unwrap_all_loop_unfold (data.drop offset) 0]
    simp only [List.length_drop, List.drop_zero, Nat.zero_add, List.nil_append]
    by_cases hlt : offset < data.length
    · rw [if_pos hlt, if_pos (by omega)]
      cases hu : unwrap (data.drop offset) with
      | none => rfl
      | some p =>
        simp only []
        rw [ih data _ _ (by omega)]
        rw [ih (data.drop offset) _ _ (by simp only [List.length_drop]; omega)]
        rw [List.drop_drop, Option.map_map]
        congr 1
        funext rest
        simp only [Function.comp_apply, List.append_assoc]
    · rw [if_neg hlt, if_neg (by omega)]
      simp

theorem unwrap_all_nil : unwrap_all [] = some [] := by
  unfold unwrap_all
  rw [unwrap_all_loop_unfold, if_neg (by simp)]

/-- Recursion equation of `unwrap_all` on a non-empty buffer. -/
theorem unwrap_all_step (data : List U8) (h : data ≠ []) :
    unwrap_all data =
      match unwrap data with
      | none => none
      | some p => (unwrap_all (data.drop (5 + p.length))).map (fun rest => p ++ rest) := by
  have hlen : 0 < data.length := List.length_pos.mpr h
  have hw : unwrap_all data = unwrap_all_loop data 0 [] := rfl
  rw [hw, unwrap_all_loop_unfold, if_pos hlen]
  simp only [List.drop_zero, Nat.zero_add, List.nil_append]
  cases hu : unwrap data with
  | none => rfl
  | some p =>
    simp only []
    rw [unwrap_all_loop_drop data.length data _ _ (by omega)]

/-! ## Records followed by further bytes -/

theorem at_index_append (r t : List U8) (i : Nat) (h : i < r.length) :
    at_index (r ++ t) i = at_index r i := by
  unfold at_index
  exact List.getD_append r t 0 i h

theorem slice_append (r t : List U8) (lo hi : Nat) (h : hi ≤ r.length) :
    slice (r ++ t) lo hi = slice r lo hi := by
  unfold slice
  rw [List.take_append_of_le_length h]

/-- Bytes after the first record do not change what `unwrap` returns. -/
theorem unwrap_append {r p : List U8} (t : List U8) (h : unwrap r = some p) :
    unwrap (r ++ t) = some p := by
  rw [unwrap_eq] at h ⊢
  split at h
  · rename_i hc
    have h0 := at_index_append r t 0 (by omega)
    have h3 := at_index_append r t 3 (by omega)
    have h4 := at_index_append r t 4 (by omega)
    rw [h0, h3, h4, slice_append r t _ _ hc.2.2.2, List.length_append,
      if_pos ⟨by omega, hc.2.1, hc.2.2.1, by omega⟩]
    exact h
  · exact absurd h (by simp)

/-- A record as `wrap` writes it, followed by any bytes, unwraps to its payload. -/
theorem unwrap_record (p rest : List U8) (h : p.length ≤ 16384) :
    unwrap ([0x17, 0x03, 0x03, to_u8 (p.length / 256), to_u8 (p.length % 256)] ++ p ++ rest)
      = some p := by
  apply unwrap_append
  rw [unwrap_eq]
  have hL : (at_index ([0x17, 0x03, 0x03, to_u8 (p.length / 256), to_u8 (p.length % 256)] ++ p) 3).val
      * 256 + (at_index ([0x17, 0x03, 0x03, to_u8 (p.length / 256), to_u8 (p.length % 256)] ++ p)
        4).val = p.length := by
    simp only [at_index, to_u8, List.cons_append, List.getD_cons_succ, List.getD_cons_zero]
    omega
  have h0 : at_index ([0x17, 0x03, 0x03, to_u8 (p.length / 256), to_u8 (p.length % 256)] ++ p) 0
      = 0x17 := rfl
  have hlen : ([0x17, 0x03, 0x03, to_u8 (p.length / 256), to_u8 (p.length % 256)] ++ p).length
      = 5 + p.length := by
    simp only [List.cons_append, List.nil_append, List.length_cons]
    omega
  rw [hL, hlen, if_pos ⟨by omega, h0, h, by omega⟩]
  have ht : (5 + p.length) = p.length + 1 + 1 + 1 + 1 + 1 := by omega
  simp only [slice, List.cons_append, List.nil_append, ht, List.take_succ_cons, List.drop_succ_cons,
    List.take_length, List.drop_zero]

/-- A complete record in front of a buffer: `unwrap_all` returns its payload
followed by what it returns for the rest. -/
theorem unwrap_all_cons_record {r p : List U8} (rest : List U8) (hu : unwrap r = some p)
    (hl : r.length = 5 + p.length) :
    unwrap_all (r ++ rest) = (unwrap_all rest).map (fun out => p ++ out) := by
  have hne : r ++ rest ≠ [] := by
    intro hnil
    have h0 : (r ++ rest).length = 0 := by rw [hnil]; rfl
    rw [List.length_append] at h0
    omega
  rw [unwrap_all_step _ hne, unwrap_append rest hu]
  simp only []
  rw [← hl, List.drop_left]

theorem unwrap_all_record (p rest : List U8) (h : p.length ≤ 16384) :
    unwrap_all ([0x17, 0x03, 0x03, to_u8 (p.length / 256), to_u8 (p.length % 256)] ++ p ++ rest)
      = (unwrap_all rest).map (fun out => p ++ out) := by
  apply unwrap_all_cons_record
  · have hr := unwrap_record p [] h
    rw [List.append_nil] at hr
    exact hr
  · simp only [List.cons_append, List.nil_append, List.length_cons]
    omega

/-! ## Round trip and size of `wrap` -/

theorem unwrap_all_wrap_aux (n : Nat) : ∀ D : List U8, D.length ≤ n →
    unwrap_all (wrap D) = some D := by
  induction n with
  | zero =>
    intro D hD
    rw [wrap_small D (by omega)]
    have h := unwrap_all_record D [] (by omega)
    rw [List.append_nil] at h
    rw [h, unwrap_all_nil]
    simp
  | succ n ih =>
    intro D hD
    by_cases hs : D.length ≤ 16384
    · rw [wrap_small D hs]
      have h := unwrap_all_record D [] hs
      rw [List.append_nil] at h
      rw [h, unwrap_all_nil]
      simp
    · have hl : 16384 < D.length := by omega
      have ht : (D.take 16384).length = 16384 := by
        rw [List.length_take]
        omega
      have h := unwrap_all_record (D.take 16384) (wrap (D.drop 16384)) (by omega)
      rw [ht] at h
      rw [wrap_large D hl]
      have hb : to_u8 (16384 / 256) = 0x40 ∧ to_u8 (16384 % 256) = 0x00 := by decide
      rw [hb.1, hb.2] at h
      rw [h, ih (D.drop 16384) (by rw [List.length_drop]; omega)]
      simp

theorem wrap_length_aux (n : Nat) : ∀ D : List U8, D.length ≤ n →
    (wrap D).length = 5 * max 1 ((D.length + 16383) / 16384) + D.length := by
  induction n with
  | zero =>
    intro D hD
    rw [wrap_small D (by omega)]
    simp only [List.cons_append, List.nil_append, List.length_cons]
    omega
  | succ n ih =>
    intro D hD
    by_cases hs : D.length ≤ 16384
    · rw [wrap_small D hs]
      simp only [List.cons_append, List.nil_append, List.length_cons]
      omega
    · have hl : 16384 < D.length := by omega
      rw [wrap_large D hl]
      simp only [List.cons_append, List.nil_append, List.length_cons, List.length_append,
        List.length_take]
      rw [ih (D.drop 16384) (by rw [List.length_drop]; omega), List.length_drop]
      omega

/-- The ceiling of `n / 16384`, computed in the integers as the source does for
`num_records`. -/
theorem ceil_div_16384 (n : Nat) : ⌈(n : ℚ) / 16384⌉₊ = (n + 16383) / 16384 := by
  apply le_antisymm
  · rw [Nat.ceil_le, div_le_iff₀ (by norm_num)]
    have h : n ≤ (n + 16383) / 16384 * 16384 := by omega
    exact_mod_cast h
  · by_cases hk : (n + 16383) / 16384 = 0
    · omega
    · have h1 : (n + 16383) / 16384 - 1 < ⌈(n : ℚ) / 16384⌉₊ := by
        rw [Nat.lt_ceil, lt_div_iff₀ (by norm_num)]
        have h : ((n + 16383) / 16384 - 1) * 16384 < n := by omega
        exact_mod_cast h
      omega

/-- Decomposition of the output of `wrap` into records: full chunks followed by
one last chunk. -/
theorem wrap_chunks_aux (n : Nat) : ∀ D : List U8, D.length ≤ n →
    ∃ (init : List (List U8)) (last : List U8),
      (init ++ [last]).flatten = D ∧
      wrap D = ((init ++ [last]).map spec_record).flatten ∧
      (∀ c ∈ init, c.length = 16384) ∧
      last.length ≤ 16384 ∧ (1 ≤ last.length ∨ D = []) := by
  induction n with
  | zero =>
    intro D hD
    refine ⟨[], D, by simp, ?_, by simp, by omega, ?_⟩
    · rw [wrap_small D (by omega)]
      simp [spec_record]
    · right
      exact List.length_eq_zero.mp (by omega)
  | succ n ih =>
    intro D hD
    by_cases hs : D.length ≤ 16384
    · refine ⟨[], D, by simp, ?_, by simp, hs, ?_⟩
      · rw [wrap_small D hs]
        simp [spec_record]
      · cases D with
        | nil => right; rfl
        | cons a l => left; simp
    · have hl : 16384 < D.length := by omega
      obtain ⟨init, last, hflat, hwrap, hinit, hlast, hpos⟩ :=
        ih (D.drop 16384) (by rw [List.length_drop]; omega)
      have ht : (D.take 16384).length = 16384 := by
        rw [List.length_take]
        omega
      refine ⟨D.take 16384 :: init, last, ?_, ?_, ?_, hlast, ?_⟩
      · rw [List.cons_append, List.flatten_cons, hflat, List.take_append_drop]
      · rw [wrap_large D hl, hwrap]
        simp only [List.cons_append, List.map_cons, List.flatten_cons, spec_record, ht]
        rfl
      · intro c hc
        rcases List.mem_cons.mp hc with h | h
        · rw [h, ht]
        · exact hinit c h
      · left
        rcases hpos with h | h
        · exact h
        · have h0 : (D.drop 16384).length = 0 := by rw [h]; rfl
          rw [List.length_drop] at h0
          omega

/-! ## Buffers of complete records -/

theorem at_index_take (r : List U8) (k i : Nat) (h : i < k) :
    at_index (r.take k) i = at_index r i := by
  unfold at_index
  simp only [List.getD_eq_getElem?_getD]
  rw [List.getElem?_take_of_lt h]

/-- The first record of a buffer, cut out, unwraps to the same payload. -/
theorem unwrap_take {r p : List U8} (h : unwrap r = some p) :
    unwrap (r.take (5 + p.length)) = some p := by
  obtain ⟨hlen, hfit, hp⟩ := unwrap_some_length h
  rw [unwrap_eq] at h ⊢
  split at h
  · rename_i hc
    rw [at_index_take r _ 0 (by omega), at_index_take r _ 3 (by omega),
      at_index_take r _ 4 (by omega), List.length_take, ← hlen,
      if_pos ⟨by omega, hc.2.1, by omega, by omega⟩]
    have hs : slice (r.take (5 + p.length)) 5 (5 + p.length) = slice r 5 (5 + p.length) := by
      simp only [slice, List.take_take, Nat.min_self]
    rw [hs, ← hp]
  · exact absurd h (by simp)

/-- A buffer that starts with complete records: `unwrap_all` returns their
payloads in order, followed by what it returns for the bytes after them. -/
theorem unwrap_all_flatten_append (records : List (List U8)) (b : List U8)
    (h : ∀ r ∈ records, ∃ p, unwrap r = some p ∧ r.length = 5 + p.length) :
    unwrap_all (records.flatten ++ b) =
      (unwrap_all b).map (fun out => (records.filterMap unwrap).flatten ++ out) := by
  induction records with
  | nil =>
    simp
  | cons r rs ih =>
    obtain ⟨p, hu, hl⟩ := h r (List.mem_cons_self r rs)
    have hrs : ∀ x ∈ rs, ∃ q, unwrap x = some q ∧ x.length = 5 + q.length :=
      fun x hx => h x (List.mem_cons_of_mem r hx)
    rw [List.flatten_cons, List.append_assoc, unwrap_all_cons_record _ hu hl, ih hrs,
      Option.map_map, List.filterMap_cons, hu]
    simp only [List.flatten_cons]
    congr 1
    funext out
    simp only [Function.comp_apply, List.append_assoc]

/-- A buffer on which `unwrap_all` succeeds is a sequence of complete records. -/
theorem unwrap_all_some_records (n : Nat) : ∀ (data P : List U8), data.length ≤ n →
    unwrap_all data = some P →
      ∃ records : List (List U8), data = records.flatten ∧
        (∀ r ∈ records, ∃ p, unwrap r = some p ∧ r.length = 5 + p.length) ∧
        P = (records.filterMap unwrap).flatten := by
  induction n with
  | zero =>
    intro data P hn h
    have hd : data = [] := List.length_eq_zero.mp (by omega)
    subst hd
    rw [unwrap_all_nil] at h
    simp only [Option.some.injEq] at h
    exact ⟨[], rfl, by simp, by simp [← h]⟩
  | succ n ih =>
    intro data P hn h
    by_cases hd : data = []
    · subst hd
      rw [unwrap_all_nil] at h
      simp only [Option.some.injEq] at h
      exact ⟨[], rfl, by simp, by simp [← h]⟩
    · rw [unwrap_all_step data hd] at h
      cases hu : unwrap data with
      | none =>
        rw [hu] at h
        exact absurd h (by simp)
      | some p =>
        rw [hu] at h
        simp only [Option.map_eq_some'] at h
        obtain ⟨P', hP', hPP⟩ := h
        obtain ⟨_, hfit, _⟩ := unwrap_some_length hu
        obtain ⟨rs, hflat, hall, hpay⟩ :=
          ih (data.drop (5 + p.length)) P' (by rw [List.length_drop]; omega) hP'
        refine ⟨data.take (5 + p.length) :: rs, ?_, ?_, ?_⟩
        · rw [List.flatten_cons, ← hflat, List.take_append_drop]
        · intro r hr
          rcases List.mem_cons.mp hr with he | hm
          · refine ⟨p, ?_, ?_⟩
            · rw [he]
              exact unwrap_take hu
            · rw [he, List.length_take]
              omega
          · exact hall r hm
        · rw [List.filterMap_cons, unwrap_take hu]
          simp only [List.flatten_cons]
          rw [← hpay, hPP]

/-- When `unwrap_all` succeeds on `a`, it continues on `a ++ b` with `b`. -/
theorem unwrap_all_append {a pa : List U8} (b : List U8) (h : unwrap_all a = some pa) :
    unwrap_all (a ++ b) = (unwrap_all b).map (fun out => pa ++ out) := by
  obtain ⟨records, hflat, hall, hpay⟩ := unwrap_all_some_records a.length a pa (Nat.le_refl _) h
  rw [hflat, unwrap_all_flatten_append records b hall, ← hpay]

/-- The result of `parse_header` depends on the first five bytes only. -/
theorem parse_header_of_take_eq {d d2 : List U8} (h5 : 5 ≤ d.length)
    (ht : d2.take 5 = d.take 5) : parse_header d2 = parse_header d := by
  have hlen : d2.length ≥ 5 := by
    have h := congrArg List.length ht
    rw [List.length_take, List.length_take] at h
    omega
  have ha : ∀ i, i < 5 → at_index d2 i = at_index d i := by
    intro i hi
    rw [← at_index_take d2 5 i hi, ← at_index_take d 5 i hi, ht]
  have hr : ∀ i, i + 1 < 5 → read_be_u16 d2 i = read_be_u16 d i := by
    intro i hi
    unfold read_be_u16
    rw [ha i (by omega), ha (i + 1) hi]
  rw [parse_header_eq d2, parse_header_eq d, ha 0 (by omega), ha 3 (by omega), ha 4 (by omega),
    hr 1 (by omega), hr 3 (by omega)]
  by_cases hc : (at_index d 0 = 0x14 ∨ at_index d 0 = 0x15 ∨ at_index d 0 = 0x16 ∨
      at_index d 0 = 0x17) ∧ (at_index d 3).val * 256 + (at_index d 4).val ≤ 16384
  · rw [if_pos ⟨hlen, hc⟩, if_pos ⟨h5, hc⟩]
  · rw [if_neg (fun c => hc c.2), if_neg (fun c => hc c.2)]

/-! ## Claims about `wrap` and the round trip -/

/-- C1: for every byte vector `D`, also the empty one and those longer than
16384 bytes, `unwrap_all (wrap D)` succeeds and returns exactly `D`. -/
theorem unwrap_all_wrap_roundtrip (D : List U8) : unwrap_all (wrap D) = some D :=
  unwrap_all_wrap_aux D.length D (Nat.le_refl _)

/-- C2: the length of `wrap D` is `5 * max 1 ⌈|D| / 16384⌉ + |D|`: five bytes of
header for each record, at least one record (so the empty input gives 5 bytes);
for a non-empty `D` this is `5 * ⌈|D| / 16384⌉ + |D|`. -/
theorem wrap_length (D : List U8) :
    (wrap D).length = 5 * max 1 ⌈(D.length : ℚ) / 16384⌉₊ + D.length ∧
      (D = [] ∨ (wrap D).length = 5 * ⌈(D.length : ℚ) / 16384⌉₊ + D.length) ∧
      (wrap []).length = 5 := by
  have h := wrap_length_aux D.length D (Nat.le_refl _)
  rw [ceil_div_16384]
  refine ⟨h, ?_, ?_⟩
  · cases D with
    | nil => left; rfl
    | cons a l =>
      right
      rw [h]
      simp only [List.length_cons]
      omega
  · rw [wrap_small [] (by simp)]
    rfl

/-- C3: `wrap` is the chunking reference definition. An input of at most 16384
bytes becomes the single record `17 03 03 (|D| div 256) (|D| mod 256)` followed
by `D`; a longer input becomes the record `17 03 03 40 00` with the first 16384
bytes, followed by `wrap` of the remaining bytes. Hence the output is a sequence
of records in which every record but the last carries exactly 16384 bytes and
the last carries between 1 and 16384 bytes (0 only for the empty input). -/
theorem wrap_chunking (D : List U8) :
    (D.length ≤ 16384 →
      (wrap D).map Fin.val =
        [0x17, 0x03, 0x03, D.length / 256, D.length % 256] ++ D.map Fin.val) ∧
    (16384 < D.length →
      wrap D = [0x17, 0x03, 0x03, 0x40, 0x00] ++ D.take 16384 ++ wrap (D.drop 16384)) ∧
    (∃ (init : List (List U8)) (last : List U8),
      (init ++ [last]).flatten = D ∧
      wrap D = ((init ++ [last]).map spec_record).flatten ∧
      (∀ c ∈ init, c.length = 16384) ∧
      last.length ≤ 16384 ∧ (1 ≤ last.length ∨ D = [])) := by
  refine ⟨?_, wrap_large D, wrap_chunks_aux D.length D (Nat.le_refl _)⟩
  intro h
  rw [wrap_small D h]
  simp only [List.cons_append, List.nil_append, List.map_cons, to_u8]
  have h1 : D.length / 256 % 256 = D.length / 256 := by omega
  have h2 : D.length % 256 % 256 = D.length % 256 := by omega
  rw [h1, h2]
  rfl

/-- Witness for C3 at the empty input, at the three-byte input `01 02 03` and at
an input of 16385 zero bytes. -/
theorem wrap_chunking_witness :
    (([] : List U8).length ≤ 16384 ∧
      (wrap []).map Fin.val = [0x17, 0x03, 0x03, 0, 0]) ∧
    (([1, 2, 3] : List U8).length ≤ 16384 ∧
      (wrap [1, 2, 3]).map Fin.val = [0x17, 0x03, 0x03, 0, 3, 1, 2, 3]) ∧
    (16384 < (List.replicate 16385 (0 : U8)).length ∧
      wrap (List.replicate 16385 (0 : U8)) =
        [0x17, 0x03, 0x03, 0x40, 0x00] ++ (List.replicate 16385 (0 : U8)).take 16384 ++
          wrap ((List.replicate 16385 (0 : U8)).drop 16384)) :=
  ⟨⟨by decide, (wrap_chunking []).1 (by decide)⟩,
    ⟨by decide, (wrap_chunking [1, 2, 3]).1 (by decide)⟩,
    ⟨by rw [List.length_replicate]; decide,
      (wrap_chunking (List.replicate 16385 0)).2.1 (by rw [List.length_replicate]; decide)⟩⟩

/-! ## Claims about `unwrap`, `parse_header` and `unwrap_all` -/

/-- C4: `unwrap r` returns a payload if and only if `r` has at least 5 bytes,
its first byte is 0x17, the big-endian length `L` in bytes 3 and 4 is at most
16384, and `r` has at least `5 + L` bytes; the payload is then the slice
`r[5 .. 5+L)`. In every other case `unwrap r` is `nullopt`. -/
theorem unwrap_spec (r : List U8) :
    ((unwrap r).isSome ↔
      5 ≤ r.length ∧ at_index r 0 = 0x17 ∧
        (at_index r 3).val * 256 + (at_index r 4).val ≤ 16384 ∧
        5 + ((at_index r 3).val * 256 + (at_index r 4).val) ≤ r.length) ∧
    unwrap r =
      if 5 ≤ r.length ∧ at_index r 0 = 0x17 ∧
          (at_index r 3).val * 256 + (at_index r 4).val ≤ 16384 ∧
          5 + ((at_index r 3).val * 256 + (at_index r 4).val) ≤ r.length then
        some ((r.drop 5).take ((at_index r 3).val * 256 + (at_index r 4).val))
      else none := by
  have h := unwrap_eq r
  rw [slice_drop] at h
  refine ⟨?_, h⟩
  rw [h]
  split <;> simp_all

/-- C5: `parse_header d` is `nullopt` if and only if `d` has fewer than 5 bytes,
or its first byte is none of 0x14, 0x15, 0x16, 0x17, or the big-endian length in
bytes 3 and 4 exceeds 16384. The length 16384 (bytes 40 00) is accepted and
16385 (bytes 40 01) is rejected. -/
theorem parse_header_none_iff (d : List U8) :
    (parse_header d = none ↔
      d.length < 5 ∨
      ¬ (at_index d 0 = 0x14 ∨ at_index d 0 = 0x15 ∨ at_index d 0 = 0x16 ∨
          at_index d 0 = 0x17) ∨
      16384 < (at_index d 3).val * 256 + (at_index d 4).val) ∧
    parse_header [0x17, 0x03, 0x03, 0x40, 0x00] ≠ none ∧
    parse_header [0x17, 0x03, 0x03, 0x40, 0x01] = none := by
  refine ⟨?_, by decide, by decide⟩
  rw [parse_header_eq]
  constructor
  · intro h
    split at h
    · exact absurd h (by simp)
    · rename_i hc
      by_cases h1 : d.length < 5
      · exact Or.inl h1
      · by_cases h2 : (at_index d 0 = 0x14 ∨ at_index d 0 = 0x15 ∨ at_index d 0 = 0x16 ∨
            at_index d 0 = 0x17)
        · right
          right
          by_contra h3
          exact hc ⟨by omega, h2, by omega⟩
        · exact Or.inr (Or.inl h2)
  · intro h
    rw [if_neg]
    intro hc
    rcases h with h | h | h
    · omega
    · exact h hc.2.1
    · omega

/-- C6: `unwrap_all` iterates `unwrap` over the buffer. On the empty buffer it
returns the empty payload. On a non-empty buffer it fails when `unwrap` fails,
and when `unwrap` returns `p` it continues after the first `5 + |p|` bytes and
puts `p` in front of the result. So `unwrap_all data` returns `P` exactly when
`data` is a concatenation of complete application-data records with nothing
left over, and `P` is the concatenation of their payloads in order. -/
theorem unwrap_all_iterates (data : List U8) :
    unwrap_all [] = some [] ∧
    (data ≠ [] → unwrap data = none → unwrap_all data = none) ∧
    (∀ p, data ≠ [] → unwrap data = some p →
      unwrap_all data = (unwrap_all (data.drop (5 + p.length))).map (fun rest => p ++ rest)) ∧
    (∀ P, unwrap_all data = some P ↔
      ∃ records : List (List U8), data = records.flatten ∧
        (∀ r ∈ records, ∃ p, unwrap r = some p ∧ r.length = 5 + p.length) ∧
        P = (records.filterMap unwrap).flatten) := by
  refine ⟨unwrap_all_nil, ?_, ?_, ?_⟩
  · intro hne hu
    rw [unwrap_all_step data hne, hu]
  · intro p hne hu
    rw [unwrap_all_step data hne, hu]
  · intro P
    constructor
    · exact unwrap_all_some_records data.length data P (Nat.le_refl _)
    · rintro ⟨records, hflat, hall, hpay⟩
      have h := unwrap_all_flatten_append records [] hall
      rw [List.append_nil, unwrap_all_nil] at h
      rw [hflat, h, hpay]
      simp

/-- Witness for C6: a truncated record makes `unwrap_all` fail, and a buffer of
two records is unwrapped record by record. -/
theorem unwrap_all_iterates_witness :
    (([0x17, 0x03, 0x03, 0x00, 0x05, 0x01] : List U8) ≠ [] ∧
      unwrap [0x17, 0x03, 0x03, 0x00, 0x05, 0x01] = none ∧
      unwrap_all [0x17, 0x03, 0x03, 0x00, 0x05, 0x01] = none) ∧
    (([0x17, 0x03, 0x03, 0x00, 0x01, 0x09, 0x17, 0x03, 0x03, 0x00, 0x00] : List U8) ≠ [] ∧
      unwrap [0x17, 0x03, 0x03, 0x00, 0x01, 0x09, 0x17, 0x03, 0x03, 0x00, 0x00] = some [0x09] ∧
      unwrap_all [0x17, 0x03, 0x03, 0x00, 0x01, 0x09, 0x17, 0x03, 0x03, 0x00, 0x00] =
        (unwrap_all [0x17, 0x03, 0x03, 0x00, 0x00]).map (fun rest => [0x09] ++ rest)) :=
  ⟨⟨by decide, by decide,
      (unwrap_all_iterates [0x17, 0x03, 0x03, 0x00, 0x05, 0x01]).2.1 (by decide) (by decide)⟩,
    ⟨by decide, by decide,
      (unwrap_all_iterates
        [0x17, 0x03, 0x03, 0x00, 0x01, 0x09, 0x17, 0x03, 0x03, 0x00, 0x00]).2.2.1 [0x09]
        (by decide) (by decide)⟩⟩

/-- C7: `unwrap_all` returns `nullopt` when a record is invalid or incomplete,
also after valid ones: if `unwrap_all` succeeds on `a`, and `b` is non-empty and
`unwrap b` fails, then `unwrap_all (a ++ b)` is `nullopt`. -/
theorem unwrap_all_fails_after_valid (a b : List U8) (ha : (unwrap_all a).isSome)
    (hb : b ≠ []) (hu : unwrap b = none) : unwrap_all (a ++ b) = none := by
  obtain ⟨pa, hpa⟩ := Option.isSome_iff_exists.mp ha
  rw [unwrap_all_append b hpa, unwrap_all_step b hb, hu]
  rfl

/-- Witness for C7: a valid 2-byte record followed by a truncated record. -/
theorem unwrap_all_fails_after_valid_witness :
    (unwrap_all [0x17, 0x03, 0x03, 0x00, 0x02, 0xAA, 0xBB]).isSome ∧
    ([0x17, 0x03, 0x03, 0x00, 0x05, 0x01] : List U8) ≠ [] ∧
    unwrap [0x17, 0x03, 0x03, 0x00, 0x05, 0x01] = none ∧
    unwrap_all ([0x17, 0x03, 0x03, 0x00, 0x02, 0xAA, 0xBB] ++
      [0x17, 0x03, 0x03, 0x00, 0x05, 0x01]) = none :=
  have ha : (unwrap_all [0x17, 0x03, 0x03, 0x00, 0x02, 0xAA, 0xBB]).isSome := by
    have h := unwrap_all_record [0xAA, 0xBB] [] (by decide)
    rw [unwrap_all_nil] at h
    exact Option.isSome_iff_exists.mpr ⟨_, h⟩
  ⟨ha, by decide, by decide,
    unwrap_all_fails_after_valid _ _ ha (by decide) (by decide)⟩

/-- C8, as the code has it: `unwrap` returns the same `nullopt` on a well-formed
header whose content type is 0x14, 0x15 or 0x16, on an input of fewer than 5
bytes, and on a payload shorter than the length in the header. -/
theorem unwrap_failures_are_nullopt (r : List U8) :
    (∀ header off, parse_header r = some (header, off) →
      (header.content_type = 0x14 ∨ header.content_type = 0x15 ∨ header.content_type = 0x16) →
      unwrap r = none) ∧
    (r.length < 5 → unwrap r = none) ∧
    (∀ header off, parse_header r = some (header, off) →
      r.length < 5 + header.length.val → unwrap r = none) := by
  refine ⟨?_, ?_, ?_⟩
  · intro header off hp hct
    unfold unwrap
    rw [hp]
    simp only []
    rw [if_pos]
    rcases hct with h | h | h <;> rw [h] <;> decide
  · intro hlen
    rw [unwrap_eq, if_neg]
    intro hc
    omega
  · intro header off hp hlen
    have h5 := parse_header_offset hp
    subst h5
    unfold unwrap
    rw [hp]
    simp only []
    rw [if_pos hlen]
    split <;> rfl

/-- Witness for C8 as amended: a handshake record (type 0x16), a 3-byte input
and a record whose payload is cut short. -/
theorem unwrap_failures_are_nullopt_witness :
    (parse_header [0x16, 0x03, 0x03, 0x00, 0x00] =
        some ({ content_type := 0x16, legacy_version := 0x0303, length := 0 }, 5) ∧
      unwrap [0x16, 0x03, 0x03, 0x00, 0x00] = none) ∧
    (([0x17, 0x03, 0x03] : List U8).length < 5 ∧ unwrap [0x17, 0x03, 0x03] = none) ∧
    (parse_header [0x17, 0x03, 0x03, 0x00, 0x05, 0x01, 0x02] =
        some ({ content_type := 0x17, legacy_version := 0x0303, length := 5 }, 5) ∧
      unwrap [0x17, 0x03, 0x03, 0x00, 0x05, 0x01, 0x02] = none) :=
  ⟨⟨by decide,
      (unwrap_failures_are_nullopt [0x16, 0x03, 0x03, 0x00, 0x00]).1 _ _
        (show parse_header [0x16, 0x03, 0x03, 0x00, 0x00] =
          some ({ content_type := 0x16, legacy_version := 0x0303, length := 0 }, 5) by decide)
        (by decide)⟩,
    ⟨by decide, (unwrap_failures_are_nullopt [0x17, 0x03, 0x03]).2.1 (by decide)⟩,
    ⟨by decide,
      (unwrap_failures_are_nullopt [0x17, 0x03, 0x03, 0x00, 0x05, 0x01, 0x02]).2.2 _ _
        (show parse_header [0x17, 0x03, 0x03, 0x00, 0x05, 0x01, 0x02] =
          some ({ content_type := 0x17, legacy_version := 0x0303, length := 5 }, 5) by decide)
        (by decide)⟩⟩

/-- C8, as stated, fails: the result of `unwrap` on a handshake record (a
well-formed header of content type 0x16) is equal to its result on a 3-byte
input and to its result on a record with a truncated payload, so the result
does not tell a non-application-data record from an incomplete one. -/
theorem unwrap_failure_kinds_indistinguishable :
    unwrap [0x16, 0x03, 0x03, 0x00, 0x00] = unwrap [0x17, 0x03, 0x03] ∧
    unwrap [0x16, 0x03, 0x03, 0x00, 0x00] = unwrap [0x17, 0x03, 0x03, 0x00, 0x05, 0x01, 0x02] ∧
    (parse_header [0x16, 0x03, 0x03, 0x00, 0x00]).isSome := by
  decide

/-- C9: `unwrap` unwraps only the first record. `unwrap (wrap D)` succeeds and
returns the first `min |D| 16384` bytes of `D`, which is `D` itself when `D` has
at most 16384 bytes; and when `unwrap r` returns `p`, so does `unwrap (r ++ t)`
for every `t`. -/
theorem unwrap_first_record (D : List U8) :
    unwrap (wrap D) = some (D.take (min D.length 16384)) ∧
    (D.length ≤ 16384 → unwrap (wrap D) = some D) ∧
    (∀ r p t : List U8, unwrap r = some p → unwrap (r ++ t) = some p) := by
  have hsmall : D.length ≤ 16384 → unwrap (wrap D) = some D := by
    intro hs
    rw [wrap_small D hs]
    have h := unwrap_record D [] hs
    rw [List.append_nil] at h
    exact h
  refine ⟨?_, hsmall, fun r p t h => unwrap_append t h⟩
  by_cases hs : D.length ≤ 16384
  · have hm : min D.length 16384 = D.length := by omega
    rw [hm, List.take_length]
    exact hsmall hs
  · have hl : 16384 < D.length := by omega
    have hm : min D.length 16384 = 16384 := by omega
    have ht : (D.take 16384).length = 16384 := by
      rw [List.length_take]
      omega
    have h := unwrap_record (D.take 16384) (wrap (D.drop 16384)) (by omega)
    rw [ht] at h
    have hb : to_u8 (16384 / 256) = 0x40 ∧ to_u8 (16384 % 256) = 0x00 := by decide
    rw [hb.1, hb.2] at h
    rw [hm, wrap_large D hl]
    exact h

/-- Witness for C9: a three-byte input, and the record `17 03 03 00 01 09`
followed by two more bytes. -/
theorem unwrap_first_record_witness :
    (([1, 2, 3] : List U8).length ≤ 16384 ∧ unwrap (wrap [1, 2, 3]) = some [1, 2, 3]) ∧
    (unwrap [0x17, 0x03, 0x03, 0x00, 0x01, 0x09] = some [0x09] ∧
      unwrap ([0x17, 0x03, 0x03, 0x00, 0x01, 0x09] ++ [0xAA, 0xBB]) = some [0x09]) :=
  ⟨⟨by decide, (unwrap_first_record [1, 2, 3]).2.1 (by decide)⟩,
    ⟨by decide, (unwrap_first_record []).2.2 _ _ [0xAA, 0xBB]
      (show unwrap [0x17, 0x03, 0x03, 0x00, 0x01, 0x09] = some [0x09] by decide)⟩⟩

/-- C10: when `parse_header d` succeeds, the payload offset is 5, the content
type is byte 0, the legacy version is the big-endian value of bytes 1 and 2, the
length is the big-endian value of bytes 3 and 4, and the bytes of `d` after the
first five do not affect the result: every buffer with the same first five
bytes parses to the same header and offset. -/
theorem parse_header_fields (d : List U8) (header : TLSRecordHeader) (off : Nat)
    (h : parse_header d = some (header, off)) :
    off = 5 ∧
    header.content_type = at_index d 0 ∧
    header.legacy_version.val = (at_index d 1).val * 256 + (at_index d 2).val ∧
    header.length.val = (at_index d 3).val * 256 + (at_index d 4).val ∧
    (∀ d2 : List U8, d2.take 5 = d.take 5 → parse_header d2 = some (header, off)) := by
  have h' := h
  rw [parse_header_eq] at h'
  split at h'
  · rename_i hc
    simp only [Option.some.injEq, Prod.mk.injEq] at h'
    obtain ⟨hh, ho⟩ := h'
    refine ⟨ho.symm, ?_, ?_, ?_, ?_⟩
    · rw [← hh]
    · rw [← hh]
      exact read_be_u16_val d 1
    · rw [← hh]
      exact read_be_u16_val d 3
    · intro d2 ht
      rw [parse_header_of_take_eq hc.1 ht]
      exact h
  · exact absurd h' (by simp)

/-- Witness for C10: the header `17 03 03 00 0A` followed by ten payload bytes. -/
theorem parse_header_fields_witness :
    parse_header [0x17, 0x03, 0x03, 0x00, 0x0A, 1, 2, 3, 4, 5, 6, 7, 8, 9, 10] =
        some ({ content_type := 0x17, legacy_version := 0x0303, length := 10 }, 5) ∧
    ((5 : Nat) = 5 ∧
      (0x17 : U8) = at_index [0x17, 0x03, 0x03, 0x00, 0x0A, 1, 2, 3, 4, 5, 6, 7, 8, 9, 10] 0 ∧
      (0x0303 : U16).val = (0x03 : U8).val * 256 + (0x03 : U8).val ∧
      (10 : U16).val = (0x00 : U8).val * 256 + (0x0A : U8).val ∧
      (∀ d2 : List U8,
        d2.take 5 =
            ([0x17, 0x03, 0x03, 0x00, 0x0A, 1, 2, 3, 4, 5, 6, 7, 8, 9, 10] : List U8).take 5 →
          parse_header d2 =
            some ({ content_type := 0x17, legacy_version := 0x0303, length := 10 }, 5))) :=
  ⟨by decide,
    parse_header_fields [0x17, 0x03, 0x03, 0x00, 0x0A, 1, 2, 3, 4, 5, 6, 7, 8, 9, 10]
      { content_type := 0x17, legacy_version := 0x0303, length := 10 } 5 (by decide)⟩

/-! ## Claims about `build_header`, the header round trip and concatenation -/

/-- Reading back the two bytes that `write_be_u16` writes gives the value. -/
theorem be16_of_bytes (v : U16) :
    (to_u8 (v.val / 256)).val * 256 + (to_u8 (v.val % 256)).val = v.val := by
  have hv := v.isLt
  simp only [to_u8]
  omega

/-- On a header that `parse_header` accepts, it inverts `build_header`. -/
theorem parse_build_header (h : TLSRecordHeader)
    (hct : h.content_type = 0x14 ∨ h.content_type = 0x15 ∨ h.content_type = 0x16 ∨
      h.content_type = 0x17)
    (hlen : h.length.val ≤ 16384) : parse_header (build_header h) = some (h, 5) := by
  rw [build_header_eq, parse_header_eq]
  have e0 : at_index [h.content_type, to_u8 (h.legacy_version.val / 256),
      to_u8 (h.legacy_version.val % 256), to_u8 (h.length.val / 256),
      to_u8 (h.length.val % 256)] 0 = h.content_type := rfl
  have e3 : at_index [h.content_type, to_u8 (h.legacy_version.val / 256),
      to_u8 (h.legacy_version.val % 256), to_u8 (h.length.val / 256),
      to_u8 (h.length.val % 256)] 3 = to_u8 (h.length.val / 256) := rfl
  have e4 : at_index [h.content_type, to_u8 (h.legacy_version.val / 256),
      to_u8 (h.legacy_version.val % 256), to_u8 (h.length.val / 256),
      to_u8 (h.length.val % 256)] 4 = to_u8 (h.length.val % 256) := rfl
  have r1 : read_be_u16 [h.content_type, to_u8 (h.legacy_version.val / 256),
      to_u8 (h.legacy_version.val % 256), to_u8 (h.length.val / 256),
      to_u8 (h.length.val % 256)] 1 = h.legacy_version := by
    apply Fin.ext
    rw [read_be_u16_val]
    exact be16_of_bytes h.legacy_version
  have r3 : read_be_u16 [h.content_type, to_u8 (h.legacy_version.val / 256),
      to_u8 (h.legacy_version.val % 256), to_u8 (h.length.val / 256),
      to_u8 (h.length.val % 256)] 3 = h.length := by
    apply Fin.ext
    rw [read_be_u16_val]
    exact be16_of_bytes h.length
  rw [e0, e3, e4, r1, r3, be16_of_bytes h.length, if_pos ⟨by simp, hct, hlen⟩]

/-- C11: for every header `h`, `build_header h` is exactly five bytes: the
content type, the two bytes of `legacy_version` with the most significant first,
and the two bytes of `length` with the most significant first. Application data
with version 0x0303 and length 256 gives `17 03 03 01 00`. -/
theorem build_header_bytes (h : TLSRecordHeader) :
    (build_header h).length = 5 ∧
    (build_header h).map Fin.val =
      [h.content_type.val, h.legacy_version.val / 256, h.legacy_version.val % 256,
        h.length.val / 256, h.length.val % 256] ∧
    build_header { content_type := kApplicationData, legacy_version := 0x0303, length := 256 } =
      [0x17, 0x03, 0x03, 0x01, 0x00] := by
  refine ⟨?_, ?_, by decide⟩
  · rw [build_header_eq]
    rfl
  · rw [build_header_eq]
    have hv := h.legacy_version.isLt
    have hl := h.length.isLt
    simp only [List.map_cons, List.map_nil, to_u8]
    have h1 : h.legacy_version.val / 256 % 256 = h.legacy_version.val / 256 := by omega
    have h2 : h.legacy_version.val % 256 % 256 = h.legacy_version.val % 256 := by omega
    have h3 : h.length.val / 256 % 256 = h.length.val / 256 := by omega
    have h4 : h.length.val % 256 % 256 = h.length.val % 256 := by omega
    rw [h1, h2, h3, h4]

/-- C16: header round trip. For every header whose content type is one of
0x14..0x17 and whose length is at most 16384, with any 16-bit legacy version,
`parse_header (build_header h)` returns `(h, 5)`. In particular
`parse_header (wrap D)` returns content type 0x17, version 0x0303, length
`min |D| 16384` and offset 5. -/
theorem header_roundtrip (h : TLSRecordHeader) (D : List U8) :
    ((h.content_type = 0x14 ∨ h.content_type = 0x15 ∨ h.content_type = 0x16 ∨
        h.content_type = 0x17) →
      h.length.val ≤ 16384 → parse_header (build_header h) = some (h, 5)) ∧
    (∃ hd : TLSRecordHeader, parse_header (wrap D) = some (hd, 5) ∧
      hd.content_type = 0x17 ∧ hd.legacy_version = 0x0303 ∧
      hd.length.val = min D.length 16384) := by
  refine ⟨parse_build_header h, ?_⟩
  have hmin : min D.length 16384 ≤ 16384 := by omega
  have hval : (to_u16 (min D.length 16384)).val = min D.length 16384 := by
    simp only [to_u16]
    omega
  refine ⟨⟨0x17, 0x0303, to_u16 (min D.length 16384)⟩, ?_, rfl, rfl, hval⟩
  have hp := parse_build_header ⟨0x17, 0x0303, to_u16 (min D.length 16384)⟩ (by simp)
    (by rw [hval]; exact hmin)
  rw [← hp]
  apply parse_header_of_take_eq
  · rw [build_header_eq]
    simp
  · rw [build_header_eq]
    simp only [hval]
    by_cases hs : D.length ≤ 16384
    · have hm : min D.length 16384 = D.length := by omega
      rw [wrap_small D hs, hm]
      rfl
    · have hm : min D.length 16384 = 16384 := by omega
      rw [wrap_large D (by omega), hm]
      rfl

/-- Witness for C16: a handshake header with version 0x0301 and length 16384. -/
theorem header_roundtrip_witness :
    ((0x16 : U8) = 0x14 ∨ (0x16 : U8) = 0x15 ∨ (0x16 : U8) = 0x16 ∨ (0x16 : U8) = 0x17) ∧
    (16384 : U16).val ≤ 16384 ∧
    parse_header
        (build_header { content_type := 0x16, legacy_version := 0x0301, length := 16384 }) =
      some ({ content_type := 0x16, legacy_version := 0x0301, length := 16384 }, 5) :=
  ⟨by decide, by decide,
    (header_roundtrip { content_type := 0x16, legacy_version := 0x0301, length := 16384 } []).1
      (by decide) (by decide)⟩

/-- C17: `unwrap_all` distributes over the concatenation of complete record
streams. When `unwrap_all a` returns `pa`, then `unwrap_all (a ++ b)` returns
`pa ++ pb` if `unwrap_all b` returns `pb`, and `nullopt` if `unwrap_all b`
fails. -/
theorem unwrap_all_concat (a b pa : List U8) (ha : unwrap_all a = some pa) :
    (∀ pb, unwrap_all b = some pb → unwrap_all (a ++ b) = some (pa ++ pb)) ∧
    (unwrap_all b = none → unwrap_all (a ++ b) = none) := by
  rw [unwrap_all_append b ha]
  constructor
  · intro pb hb
    rw [hb]
    rfl
  · intro hb
    rw [hb]
    rfl

/-- Witness for C17: the records `17 03 03 00 03 01 02 03` and
`17 03 03 00 02 04 05`, concatenated, unwrap to `01 02 03 04 05`. -/
theorem unwrap_all_concat_witness :
    unwrap_all [0x17, 0x03, 0x03, 0x00, 0x03, 0x01, 0x02, 0x03] = some [0x01, 0x02, 0x03] ∧
    unwrap_all [0x17, 0x03, 0x03, 0x00, 0x02, 0x04, 0x05] = some [0x04, 0x05] ∧
    unwrap_all ([0x17, 0x03, 0x03, 0x00, 0x03, 0x01, 0x02, 0x03] ++
        [0x17, 0x03, 0x03, 0x00, 0x02, 0x04, 0x05]) =
      some ([0x01, 0x02, 0x03] ++ [0x04, 0x05]) :=
  have ha : unwrap_all [0x17, 0x03, 0x03, 0x00, 0x03, 0x01, 0x02, 0x03] =
      some [0x01, 0x02, 0x03] := by
    have h := unwrap_all_record [0x01, 0x02, 0x03] [] (by decide)
    rw [unwrap_all_nil] at h
    exact h
  have hb : unwrap_all [0x17, 0x03, 0x03, 0x00, 0x02, 0x04, 0x05] = some [0x04, 0x05] := by
    have h := unwrap_all_record [0x04, 0x05] [] (by decide)
    rw [unwrap_all_nil] at h
    exact h
  ⟨ha, hb, (unwrap_all_concat _ _ _ ha).1 _ hb⟩

end veil.protocol_wrapper

/-! # Theorems about the sequence encoding -/

namespace veil.experiments

open veil.protocol_wrapper

/-- The eight bytes that the encoding loop writes. -/
theorem encode_sequence_eq (s : U64) :
    encode_sequence s =
      [to_u8 (s.val / 72057594037927936), to_u8 (s.val / 281474976710656),
        to_u8 (s.val / 1099511627776), to_u8 (s.val / 4294967296),
        to_u8 (s.val / 16777216), to_u8 (s.val / 65536), to_u8 (s.val / 256),
        to_u8 s.val] := by
  simp only [encode_sequence, encode_loop, List.replicate, List.set, and_ff_eq,
    Nat.shiftRight_eq_div_pow]
  simp [to_u8]

theorem shr_and_ff (v n : Nat) : (v >>> n) &&& 0xFF = v / 2 ^ n % 256 := by
  rw [and_ff_eq, Nat.shiftRight_eq_div_pow]

/-- One pass through the body of the decoding loop, on values: shifting in the
next byte of `v`. -/
theorem decode_step_val (d : U64) (b : U8) (v : Nat) (hv : v < 18446744073709551616)
    (hd : d.val = v / 256) (hb : b.val = v % 256) :
    (to_u64 ((to_u64 (d.val <<< 8)).val ||| b.val)).val = v := by
  have hs : (to_u64 (d.val <<< 8)).val = d.val <<< 8 := by
    simp only [to_u64, Nat.shiftLeft_eq]
    omega
  rw [hs, shl8_or_eq _ _ b.isLt]
  simp only [to_u64]
  omega

/-- The decoding loop on the eight bytes of `s`, most significant first. -/
theorem decode_encode_val (s : U64) : (decode_sequence (encode_sequence s)).val = s.val := by
  have hs := s.isLt
  rw [encode_sequence_eq]
  simp only [decode_sequence, decode_loop, at_index, List.getD_cons_zero, List.getD_cons_succ,
    Nat.zero_add, Nat.reduceAdd]
  have h1 := decode_step_val 0 (to_u8 (s.val / 72057594037927936)) (s.val / 72057594037927936)
    (by omega) (by simp only [Fin.val_zero]; omega) (by simp only [to_u8])
  have h2 := decode_step_val _ (to_u8 (s.val / 281474976710656)) (s.val / 281474976710656)
    (by omega) (by rw [h1]; omega) (by simp only [to_u8])
  have h3 := decode_step_val _ (to_u8 (s.val / 1099511627776)) (s.val / 1099511627776)
    (by omega) (by rw [h2]; omega) (by simp only [to_u8])
  have h4 := decode_step_val _ (to_u8 (s.val / 4294967296)) (s.val / 4294967296)
    (by omega) (by rw [h3]; omega) (by simp only [to_u8])
  have h5 := decode_step_val _ (to_u8 (s.val / 16777216)) (s.val / 16777216)
    (by omega) (by rw [h4]; omega) (by simp only [to_u8])
  have h6 := decode_step_val _ (to_u8 (s.val / 65536)) (s.val / 65536)
    (by omega) (by rw [h5]; omega) (by simp only [to_u8])
  have h7 := decode_step_val _ (to_u8 (s.val / 256)) (s.val / 256)
    (by omega) (by rw [h6]; omega) (by simp only [to_u8])
  have h8 := decode_step_val _ (to_u8 s.val) s.val hs (by rw [h7]) (by simp only [to_u8])
  exact h8

/-- C12: the sequence encoding is big-endian. Byte `k` of the output of the
encoding loop is `(seq >> (8 * (7 - k))) & 0xFF`, and the sequence
`0x0102030405060708` is encoded as the bytes `01 02 03 04 05 06 07 08`. -/
theorem encode_sequence_big_endian :
    encode_sequence 0x0102030405060708 = [0x01, 0x02, 0x03, 0x04, 0x05, 0x06, 0x07, 0x08] ∧
    ∀ (seq : U64) (k : Fin 8),
      (encode_sequence seq).length = 8 ∧
      ((encode_sequence seq).getD k.val 0).val = (seq.val >>> (8 * (7 - k.val))) &&& 0xFF := by
  constructor
  · decide
  · intro seq k
    rw [encode_sequence_eq]
    refine ⟨rfl, ?_⟩
    rw [shr_and_ff]
    fin_cases k <;> simp [to_u8]

/-- C19: sequence encoding round trip. For every 64-bit value `s`, the decoding
loop (`decoded = (decoded << 8) | byte` over the eight bytes in order) applied
to the big-endian encoding of `s` gives `s` again. -/
theorem decode_encode_sequence (s : U64) : decode_sequence (encode_sequence s) = s :=
  Fin.ext (decode_encode_val s)

end veil.experiments

/-! # Theorems about the modelled key schedule and sequence obfuscation -/

namespace veil.crypto

open veil.protocol_wrapper veil.experiments

theorem xor_u64_val (a b : U64) : (xor_u64 a b).val = a.val ^^^ b.val := by
  have h : a.val ^^^ b.val < 2 ^ 64 := Nat.xor_lt_two_pow a.isLt b.isLt
  simp only [xor_u64, to_u64]
  exact Nat.mod_eq_of_lt h

theorem xor_u64_cancel (a m : U64) : xor_u64 (xor_u64 a m) m = a := by
  apply Fin.ext
  rw [xor_u64_val, xor_u64_val, Nat.xor_cancel_right]

/-- C13: for every 32-byte key `K` and every 64-bit sequence number `s`,
`deobfuscate_sequence (obfuscate_sequence s K) K = s`, and for a fixed `K` the
map `s ↦ obfuscate_sequence s K` is a permutation of the 64-bit integers. -/
theorem deobfuscate_obfuscate (key_mask : Key32 → U64) (K : Key32) :
    (∀ s : U64, deobfuscate_sequence key_mask (obfuscate_sequence key_mask s K) K = s) ∧
    Function.Bijective (fun s : U64 => obfuscate_sequence key_mask s K) := by
  have hinv : ∀ s : U64,
      deobfuscate_sequence key_mask (obfuscate_sequence key_mask s K) K = s := by
    intro s
    exact xor_u64_cancel s (key_mask K)
  refine ⟨hinv, ?_, ?_⟩
  · intro a b hab
    have h := congrArg (fun x => deobfuscate_sequence key_mask x K) hab
    simp only [hinv] at h
    exact h
  · intro y
    exact ⟨deobfuscate_sequence key_mask y K, xor_u64_cancel y (key_mask K)⟩

/-- C14: for every shared secret, PSK and info string, the keys derived for the
initiator and for the responder are mirror images: the initiator's `send_key`
is the responder's `recv_key`, the initiator's `recv_key` is the responder's
`send_key`, and likewise for `send_nonce` and `recv_nonce`. -/
theorem derive_session_keys_mirror (hkdf_extract : List U8 → List U8 → List U8)
    (hkdf_expand : List U8 → List U8 → Nat → List U8) (shared_secret psk info : List U8) :
    (derive_session_keys hkdf_extract hkdf_expand shared_secret psk info true).send_key =
      (derive_session_keys hkdf_extract hkdf_expand shared_secret psk info false).recv_key ∧
    (derive_session_keys hkdf_extract hkdf_expand shared_secret psk info true).recv_key =
      (derive_session_keys hkdf_extract hkdf_expand shared_secret psk info false).send_key ∧
    (derive_session_keys hkdf_extract hkdf_expand shared_secret psk info true).send_nonce =
      (derive_session_keys hkdf_extract hkdf_expand shared_secret psk info false).recv_nonce ∧
    (derive_session_keys hkdf_extract hkdf_expand shared_secret psk info true).recv_nonce =
      (derive_session_keys hkdf_extract hkdf_expand shared_secret psk info false).send_nonce := by
  simp [derive_session_keys]

end veil.crypto

/-! # Theorems about the versions of the updater -/

namespace veil.updater

/-- C20: prerelease versions are less than release versions. For versions `a`
and `b` with equal major, minor and patch, if `a.prerelease` is non-empty and
`b.prerelease` is empty then `a < b` holds and `b < a` does not. When the
triples (major, minor, patch) differ, `a < b` is the lexicographic comparison
of the triples, whatever the prerelease strings are. -/
theorem version_lt_prerelease (a b : Version) :
    (a.major = b.major → a.minor = b.minor → a.patch = b.patch →
      a.prerelease ≠ [] → b.prerelease = [] → a.lt b = true ∧ b.lt a = false) ∧
    ((a.major, a.minor, a.patch) ≠ (b.major, b.minor, b.patch) →
      (a.lt b = true ↔
        a.major < b.major ∨
          (a.major = b.major ∧
            (a.minor < b.minor ∨ (a.minor = b.minor ∧ a.patch < b.patch))))) := by
  constructor
  · intro h1 h2 h3 ha hb
    have hae : a.prerelease.isEmpty = false := by
      cases hp : a.prerelease with
      | nil => exact absurd hp ha
      | cons x xs => rfl
    have hbe : b.prerelease.isEmpty = true := by rw [hb]; rfl
    constructor
    · unfold Version.lt
      rw [if_neg (not_not.mpr h1), if_neg (not_not.mpr h2), if_neg (not_not.mpr h3), hae, hbe]
      rfl
    · unfold Version.lt
      rw [if_neg (not_not.mpr h1.symm), if_neg (not_not.mpr h2.symm),
        if_neg (not_not.mpr h3.symm), hae, hbe]
      rfl
  · intro hne
    unfold Version.lt
    by_cases h1 : a.major = b.major
    · rw [if_neg (not_not.mpr h1)]
      by_cases h2 : a.minor = b.minor
      · rw [if_neg (not_not.mpr h2)]
        have h3 : a.patch ≠ b.patch := by
          intro h3
          exact hne (by rw [h1, h2, h3])
        rw [if_pos h3, decide_eq_true_iff]
        constructor
        · intro h
          exact Or.inr ⟨h1, Or.inr ⟨h2, h⟩⟩
        · intro h
          omega
      · rw [if_pos h2, decide_eq_true_iff]
        constructor
        · intro h
          exact Or.inr ⟨h1, Or.inl h⟩
        · intro h
          omega
    · rw [if_pos h1, decide_eq_true_iff]
      constructor
      · intro h
        exact Or.inl h
      · intro h
        omega

/-- Witness for C20: `1.2.3-beta` against `1.2.3`, and `1.2.3` against
`1.3.0-rc`. -/
theorem version_lt_prerelease_witness :
    (Version.lt ⟨1, 2, 3, ['b', 'e', 't', 'a']⟩ ⟨1, 2, 3, []⟩ = true ∧
      Version.lt ⟨1, 2, 3, []⟩ ⟨1, 2, 3, ['b', 'e', 't', 'a']⟩ = false) ∧
    (Version.lt ⟨1, 2, 3, []⟩ ⟨1, 3, 0, ['r', 'c']⟩ = true ↔
      (1 : Int) < 1 ∨ ((1 : Int) = 1 ∧ ((2 : Int) < 3 ∨ ((2 : Int) = 3 ∧ (3 : Int) < 0)))) :=
  ⟨(version_lt_prerelease ⟨1, 2, 3, ['b', 'e', 't', 'a']⟩ ⟨1, 2, 3, []⟩).1 rfl rfl rfl
      (by decide) rfl,
    (version_lt_prerelease ⟨1, 2, 3, []⟩ ⟨1, 3, 0, ['r', 'c']⟩).2 (by decide)⟩

/-! ## The reference semantics on the regular expression of `Version::parse`

What the matcher without a bound on the recursion computes on the regular
expression of `Version::parse`. -/

end veil.updater

/-! # Theorems about the checked transcription of the wrapper -/

namespace veil.protocol_wrapper

theorem at_index_checked_eq (data : List U8) (i : Nat) (h : i < data.length) :
    at_index_checked data i = .ok (at_index data i) :=
  if_pos h

theorem slice_checked_eq (data : List U8) (lo hi : Nat) (h : lo ≤ hi ∧ hi ≤ data.length) :
    slice_checked data lo hi = .ok (slice data lo hi) :=
  if_pos h

theorem read_be_u16_checked_eq (data : List U8) (offset : Nat)
    (h : offset + 1 < data.length) :
    read_be_u16_checked data offset = .ok (read_be_u16 data offset) := by
  unfold read_be_u16_checked
  rw [at_index_checked_eq data offset (by omega), at_index_checked_eq data (offset + 1) h]
  rfl

/-- With checked reads `parse_header` never reads outside the span and returns
what `parse_header` returns. -/
theorem parse_header_checked_eq (data : List U8) :
    parse_header_checked data = .ok (parse_header data) := by
  unfold parse_header_checked parse_header
  by_cases h : data.length < kTLSRecordHeaderSize
  · rw [if_pos h, if_pos h]
  · rw [if_neg h, if_neg h]
    have h5 : 5 ≤ data.length := by
      simp only [kTLSRecordHeaderSize] at h
      omega
    rw [at_index_checked_eq data 0 (by omega), read_be_u16_checked_eq data 1 (by omega),
      read_be_u16_checked_eq data 3 (by omega)]
    simp only []
    split
    · split <;> rfl
    · rfl

/-- With checked reads `unwrap` never reads outside the span and returns what
`unwrap` returns. -/
theorem unwrap_checked_eq (record : List U8) :
    unwrap_checked record = .ok (unwrap record) := by
  unfold unwrap_checked unwrap
  rw [parse_header_checked_eq]
  cases hp : parse_header record with
  | none => rfl
  | some hdr =>
    obtain ⟨header, payload_offset⟩ := hdr
    simp only []
    by_cases hct : header.content_type ≠ kApplicationData
    · rw [if_pos hct, if_pos hct]
    · rw [if_neg hct, if_neg hct]
      by_cases hl : record.length < payload_offset + header.length.val
      · rw [if_pos hl, if_pos hl]
      · rw [if_neg hl, if_neg hl, slice_checked_eq _ _ _ ⟨by omega, by omega⟩]

/-- The checked loop of `wrap` finishes within `(|data| - offset) / 16384 + 1`
passes, reads inside the span only, and returns what the loop returns. -/
theorem wrap_loop_checked_eq (data : List U8) : ∀ (fuel offset : Nat) (result : List U8),
    offset ≤ data.length → (data.length - offset) / 16384 + 1 ≤ fuel →
      wrap_loop_checked data fuel offset result = .ok (wrap_loop data offset result) := by
  intro fuel
  induction fuel with
  | zero =>
    intro offset result _ hf
    omega
  | succ fuel ih =>
    intro offset result hle hf
    unfold wrap_loop_checked
    rw [wrap_loop]
    simp only [kMaxTLSRecordPayload]
    rw [slice_checked_eq _ _ _ ⟨by omega, by omega⟩]
    simp only []
    by_cases hlt : offset + min 16384 (data.length - offset) < data.length
    · rw [if_pos hlt, if_pos hlt]
      exact ih _ _ (by omega) (by omega)
    · rw [if_neg hlt, if_neg hlt]

/-- The checked loop of `unwrap_all` finishes within `(|data| - offset) / 5 + 1`
evaluations of its condition, reads inside the span only, and returns what the
loop returns. -/
theorem unwrap_all_loop_checked_eq (data : List U8) :
    ∀ (fuel offset : Nat) (result : List U8), (data.length - offset) / 5 + 1 ≤ fuel →
      unwrap_all_loop_checked data fuel offset result =
        .ok (unwrap_all_loop data offset result) := by
  intro fuel
  induction fuel with
  | zero =>
    intro offset result hf
    omega
  | succ fuel ih =>
    intro offset result hf
    unfold unwrap_all_loop_checked
    rw [unwrap_all_loop_unfold]
    by_cases hlt : offset < data.length
    · rw [if_pos hlt, if_pos hlt]
      have hsub : subspan_checked data offset = .ok (data.drop offset) := if_pos (by omega)
      rw [hsub]
      simp only []
      rw [parse_header_checked_eq]
      cases hp : parse_header (data.drop offset) with
      | none =>
        have hu : unwrap (data.drop offset) = none := by
          unfold unwrap
          rw [hp]
        rw [hu]
      | some hdr =>
        obtain ⟨header, payload_offset⟩ := hdr
        have h5 : payload_offset = 5 := parse_header_offset hp
        subst h5
        simp only []
        by_cases hct : header.content_type ≠ kApplicationData
        · have hu : unwrap (data.drop offset) = none := by
            unfold unwrap
            rw [hp]
            simp only []
            rw [if_pos hct]
          rw [if_pos hct, hu]
        · rw [if_neg hct]
          by_cases hl : (data.drop offset).length < 5 + header.length.val
          · have hu : unwrap (data.drop offset) = none := by
              unfold unwrap
              rw [hp]
              simp only []
              rw [if_neg hct, if_pos hl]
            rw [if_pos hl, hu]
          · have hu : unwrap (data.drop offset) =
                some (slice (data.drop offset) 5 (5 + header.length.val)) := by
              unfold unwrap
              rw [hp]
              simp only []
              rw [if_neg hct, if_neg hl]
            rw [if_neg hl, hu, slice_checked_eq _ _ _ ⟨by omega, by omega⟩]
            simp only []
            rw [slice_length _ _ _ (by omega)]
            have hlen := List.length_drop offset data
            have e : 5 + header.length.val - 5 = header.length.val := by omega
            rw [e]
            exact ih _ _ (by omega)
    · rw [if_neg hlt, if_neg hlt]

/-- C18: the parsers and builders of the wrapper are total functions on byte
vectors. With every byte read checked against the size of the input,
`parse_header` and `unwrap` return their results without a read outside the
input; the loop of `wrap` ends within `|data| / 16384 + 1` passes (it consumes a
full chunk on every pass but the last) and the loop of `unwrap_all` within
`|data| / 5 + 1` evaluations of its condition (the offset grows by at least 5
on every pass and stays within the input), and both return the results of
`wrap` and `unwrap_all` without a read outside the input. -/
theorem wrapper_total (data : List U8) (fuel : Nat) :
    parse_header_checked data = .ok (parse_header data) ∧
    unwrap_checked data = .ok (unwrap data) ∧
    (data.length / 16384 + 1 ≤ fuel → wrap_checked fuel data = .ok (wrap data)) ∧
    (data.length / 5 + 1 ≤ fuel → unwrap_all_checked fuel data = .ok (unwrap_all data)) := by
  refine ⟨parse_header_checked_eq data, unwrap_checked_eq data, ?_, ?_⟩
  · intro hf
    exact wrap_loop_checked_eq data fuel 0 [] (by omega) (by omega)
  · intro hf
    exact unwrap_all_loop_checked_eq data fuel 0 [] (by omega)

/-- Witness for C18: one pass wraps three bytes, and four evaluations of the
loop condition unwrap a buffer of two records (15 bytes). -/
theorem wrapper_total_witness :
    (([1, 2, 3] : List U8).length / 16384 + 1 ≤ 1 ∧
      wrap_checked 1 [1, 2, 3] = .ok (wrap [1, 2, 3])) ∧
    (([0x17, 0x03, 0x03, 0x00, 0x03, 0x01, 0x02, 0x03,
        0x17, 0x03, 0x03, 0x00, 0x02, 0x04, 0x05] : List U8).length / 5 + 1 ≤ 4 ∧
      unwrap_all_checked 4 [0x17, 0x03, 0x03, 0x00, 0x03, 0x01, 0x02, 0x03,
          0x17, 0x03, 0x03, 0x00, 0x02, 0x04, 0x05] =
        .ok (unwrap_all [0x17, 0x03, 0x03, 0x00, 0x03, 0x01, 0x02, 0x03,
          0x17, 0x03, 0x03, 0x00, 0x02, 0x04, 0x05])) :=
  ⟨⟨by decide, (wrapper_total [1, 2, 3] 1).2.2.1 (by decide)⟩,
    ⟨by decide,
      (wrapper_total [0x17, 0x03, 0x03, 0x00, 0x03, 0x01, 0x02, 0x03,
        0x17, 0x03, 0x03, 0x00, 0x02, 0x04, 0x05] 4).2.2.2 (by decide)⟩⟩

end veil.protocol_wrapper

/-! # Further theorems about the wrapper -/

namespace veil.protocol_wrapper

/-- Closed form of `unwrap` on a buffer of at least five bytes. The version
bytes do not occur in it. -/
theorem unwrap_cons5 (t v1 v2 l1 l2 : U8) (tail : List U8) :
    unwrap (t :: v1 :: v2 :: l1 :: l2 :: tail) =
      if t = 0x17 ∧ l1.val * 256 + l2.val ≤ 16384 ∧ l1.val * 256 + l2.val ≤ tail.length then
        some (tail.take (l1.val * 256 + l2.val))
      else none := by
  rw [unwrap_eq]
  have e0 : at_index (t :: v1 :: v2 :: l1 :: l2 :: tail) 0 = t := rfl
  have e3 : at_index (t :: v1 :: v2 :: l1 :: l2 :: tail) 3 = l1 := rfl
  have e4 : at_index (t :: v1 :: v2 :: l1 :: l2 :: tail) 4 = l2 := rfl
  have hlen : (t :: v1 :: v2 :: l1 :: l2 :: tail).length = 5 + tail.length := by
    simp only [List.length_cons]
    omega
  have hs : slice (t :: v1 :: v2 :: l1 :: l2 :: tail) 5 (5 + (l1.val * 256 + l2.val)) =
      tail.take (l1.val * 256 + l2.val) := by
    rw [slice_drop]
    rfl
  rw [e0, e3, e4, hlen, hs]
  by_cases hc : t = 0x17 ∧ l1.val * 256 + l2.val ≤ 16384 ∧ l1.val * 256 + l2.val ≤ tail.length
  · rw [if_pos hc, if_pos ⟨by omega, hc.1, hc.2.1, by omega⟩]
  · rw [if_neg hc, if_neg]
    intro h
    exact hc ⟨h.2.1, h.2.2.1, by omega⟩

/-- Buffers that differ only in version bytes of record headers have the same
length and give the same results with `unwrap` and `unwrap_all`. -/
theorem differ_in_versions_same_results {x y : List U8} (h : differ_in_versions x y) :
    x.length = y.length ∧ unwrap x = unwrap y ∧ unwrap_all x = unwrap_all y := by
  induction h with
  | same x => exact ⟨rfl, rfl, rfl⟩
  | header t v1 v2 w1 w2 l1 l2 tail =>
    have hu : unwrap (t :: v1 :: v2 :: l1 :: l2 :: tail) =
        unwrap (t :: w1 :: w2 :: l1 :: l2 :: tail) := by
      rw [unwrap_cons5, unwrap_cons5]
    refine ⟨rfl, hu, ?_⟩
    rw [unwrap_all_step _ (by simp), unwrap_all_step _ (by simp), hu]
    cases hp : unwrap (t :: w1 :: w2 :: l1 :: l2 :: tail) with
    | none => rfl
    | some p =>
      simp only []
      have hd : ∀ n, (t :: v1 :: v2 :: l1 :: l2 :: tail).drop (5 + n) =
          (t :: w1 :: w2 :: l1 :: l2 :: tail).drop (5 + n) := by
        intro n
        rw [Nat.add_comm 5 n]
        rfl
      rw [hd]
  | record t v1 v2 w1 w2 l1 l2 payload rest rest' hlen _ ih =>
    obtain ⟨ihl, _, iha⟩ := ih
    have hu : unwrap (t :: v1 :: v2 :: l1 :: l2 :: (payload ++ rest)) =
        unwrap (t :: w1 :: w2 :: l1 :: l2 :: (payload ++ rest')) := by
      rw [unwrap_cons5, unwrap_cons5, List.length_append, List.length_append, ihl, ← hlen,
        List.take_left, List.take_left]
    refine ⟨?_, hu, ?_⟩
    · simp only [List.length_cons, List.length_append, ihl]
    · rw [unwrap_all_step _ (by simp), unwrap_all_step _ (by simp), hu]
      cases hp : unwrap (t :: w1 :: w2 :: l1 :: l2 :: (payload ++ rest')) with
      | none => rfl
      | some p =>
        simp only []
        have hpl : p.length = payload.length := by
          have h1 := (unwrap_some_length hp).1
          have e3 : at_index (t :: w1 :: w2 :: l1 :: l2 :: (payload ++ rest')) 3 = l1 := rfl
          have e4 : at_index (t :: w1 :: w2 :: l1 :: l2 :: (payload ++ rest')) 4 = l2 := rfl
          rw [e3, e4] at h1
          omega
        have hd : ∀ (a b : U8) (r : List U8),
            (t :: a :: b :: l1 :: l2 :: (payload ++ r)).drop (5 + p.length) = r := by
          intro a b r
          rw [hpl, Nat.add_comm 5 payload.length]
          simp only [List.drop_succ_cons]
          exact List.drop_left payload r
        rw [hd, hd, iha]

/-- The version bytes are reported and have no part in the decision of
`parse_header`. -/
theorem parse_header_any_version (t l1 l2 : U8) (tail : List U8) (v : U16) :
    parse_header (t :: to_u8 (v.val / 256) :: to_u8 (v.val % 256) :: l1 :: l2 :: tail) =
      (parse_header (t :: 0 :: 0 :: l1 :: l2 :: tail)).map
        (fun r => ({ r.1 with legacy_version := v }, r.2)) := by
  rw [parse_header_eq, parse_header_eq]
  have hv : read_be_u16
      (t :: to_u8 (v.val / 256) :: to_u8 (v.val % 256) :: l1 :: l2 :: tail) 1 = v := by
    apply Fin.ext
    rw [read_be_u16_val]
    exact be16_of_bytes v
  have h3 : read_be_u16
      (t :: to_u8 (v.val / 256) :: to_u8 (v.val % 256) :: l1 :: l2 :: tail) 3 =
      read_be_u16 (t :: 0 :: 0 :: l1 :: l2 :: tail) 3 := rfl
  have e0 : ∀ a b : U8, at_index (t :: a :: b :: l1 :: l2 :: tail) 0 = t := fun _ _ => rfl
  have e3 : ∀ a b : U8, at_index (t :: a :: b :: l1 :: l2 :: tail) 3 = l1 := fun _ _ => rfl
  have e4 : ∀ a b : U8, at_index (t :: a :: b :: l1 :: l2 :: tail) 4 = l2 := fun _ _ => rfl
  have hl : ∀ a b : U8, (t :: a :: b :: l1 :: l2 :: tail).length = tail.length + 5 :=
    fun _ _ => rfl
  rw [hv, h3, e0, e3, e4, e0, e3, e4, hl, hl]
  split <;> rfl

theorem unwrap_some_le {r p : List U8} (h : unwrap r = some p) : p.length ≤ 16384 := by
  have hl := (unwrap_some_length h).1
  rw [unwrap_eq] at h
  split at h
  · rename_i hc
    omega
  · exact absurd h (by simp)

/-- Sizes of a buffer of complete records and of its payloads. -/
theorem records_size (records : List (List U8))
    (h : ∀ r ∈ records, ∃ p, unwrap r = some p ∧ r.length = 5 + p.length) :
    records.flatten.length =
        (records.filterMap unwrap).flatten.length + 5 * records.length ∧
      (records.filterMap unwrap).flatten.length ≤ 16384 * records.length := by
  induction records with
  | nil => exact ⟨rfl, Nat.le_refl _⟩
  | cons r rs ih =>
    obtain ⟨p, hu, hl⟩ := h r (List.mem_cons_self r rs)
    obtain ⟨ih1, ih2⟩ := ih (fun x hx => h x (List.mem_cons_of_mem r hx))
    have hp := unwrap_some_le hu
    rw [List.filterMap_cons, hu]
    simp only [List.flatten_cons, List.length_append, List.length_cons]
    constructor <;> omega

/-- C23: `unwrap_all` is not injective and `wrap` is not its only preimage.
`unwrap_all` of the empty byte vector succeeds with the empty payload, whereas
`unwrap` of the empty vector fails; so the empty input and the 5-byte record
`wrap [] = 17 03 03 00 00` both unwrap to the empty payload. -/
theorem unwrap_all_not_injective :
    unwrap_all [] = some [] ∧
    unwrap [] = none ∧
    wrap [] = [0x17, 0x03, 0x03, 0x00, 0x00] ∧
    unwrap_all [0x17, 0x03, 0x03, 0x00, 0x00] = some [] ∧
    ¬ Function.Injective unwrap_all := by
  have hw : wrap [] = [0x17, 0x03, 0x03, 0x00, 0x00] := wrap_small [] (by decide)
  have hr : unwrap_all [0x17, 0x03, 0x03, 0x00, 0x00] = some [] := by
    have h := unwrap_all_record [] [] (by decide)
    rw [unwrap_all_nil] at h
    exact h
  refine ⟨unwrap_all_nil, by decide, hw, hr, ?_⟩
  intro hinj
  have h := hinj (hr.trans unwrap_all_nil.symm)
  exact absurd h (by decide)

/-- C24: the legacy version is never validated on input. Buffers of equal
length that differ only in bytes 1 and 2 of record headers give the same result
with `unwrap` and the same result with `unwrap_all`; `parse_header` accepts a
header with any 16-bit version value exactly when it accepts it with version 0,
and reports the value. -/
theorem version_not_validated (x y : List U8) (h : differ_in_versions x y) :
    x.length = y.length ∧ unwrap x = unwrap y ∧ unwrap_all x = unwrap_all y ∧
    (∀ (t l1 l2 : U8) (tail : List U8) (v : U16),
      parse_header (t :: to_u8 (v.val / 256) :: to_u8 (v.val % 256) :: l1 :: l2 :: tail) =
        (parse_header (t :: 0 :: 0 :: l1 :: l2 :: tail)).map
          (fun r => ({ r.1 with legacy_version := v }, r.2))) := by
  obtain ⟨h1, h2, h3⟩ := differ_in_versions_same_results h
  exact ⟨h1, h2, h3, parse_header_any_version⟩

/-- Witness for C24: two records whose headers carry the versions 0x0303 and
0x0301 in one buffer and 0x7F00 and 0xFFFF in the other. -/
theorem version_not_validated_witness :
    differ_in_versions
      [0x17, 0x03, 0x03, 0x00, 0x01, 0x09, 0x17, 0x03, 0x01, 0x00, 0x02, 0x0A, 0x0B]
      [0x17, 0x7F, 0x00, 0x00, 0x01, 0x09, 0x17, 0xFF, 0xFF, 0x00, 0x02, 0x0A, 0x0B] ∧
    unwrap_all [0x17, 0x03, 0x03, 0x00, 0x01, 0x09, 0x17, 0x03, 0x01, 0x00, 0x02, 0x0A, 0x0B] =
      unwrap_all [0x17, 0x7F, 0x00, 0x00, 0x01, 0x09, 0x17, 0xFF, 0xFF, 0x00, 0x02, 0x0A, 0x0B] :=
  have hd : differ_in_versions
      [0x17, 0x03, 0x03, 0x00, 0x01, 0x09, 0x17, 0x03, 0x01, 0x00, 0x02, 0x0A, 0x0B]
      [0x17, 0x7F, 0x00, 0x00, 0x01, 0x09, 0x17, 0xFF, 0xFF, 0x00, 0x02, 0x0A, 0x0B] :=
    differ_in_versions.record 0x17 0x03 0x03 0x7F 0x00 0x00 0x01 [0x09] _ _ (by decide)
      (differ_in_versions.header 0x17 0x03 0x01 0xFF 0xFF 0x00 0x02 [0x0A, 0x0B])
  ⟨hd, (version_not_validated _ _ hd).2.2.1⟩

/-- C25: size accounting of `unwrap_all`. When `unwrap_all data` returns `P`,
there is a number `k` of records with `|data| = |P| + 5 * k` and
`|P| ≤ 16384 * k`; so `|P| ≤ |data|`, and `k = 0` only for the empty buffer. -/
theorem unwrap_all_size (data P : List U8) (h : unwrap_all data = some P) :
    ∃ k : Nat, data.length = P.length + 5 * k ∧ P.length ≤ 16384 * k ∧
      P.length ≤ data.length ∧ (k = 0 → data = []) := by
  obtain ⟨records, hflat, hall, hpay⟩ :=
    unwrap_all_some_records data.length data P (Nat.le_refl _) h
  obtain ⟨h1, h2⟩ := records_size records hall
  rw [← hflat, ← hpay] at h1
  rw [← hpay] at h2
  refine ⟨records.length, h1, h2, by omega, ?_⟩
  intro hk
  have hn : records = [] := List.length_eq_zero.mp hk
  rw [hflat, hn]
  rfl

/-- Witness for C25: a record with the two payload bytes `AA BB`. -/
theorem unwrap_all_size_witness :
    unwrap_all [0x17, 0x03, 0x03, 0x00, 0x02, 0xAA, 0xBB] = some [0xAA, 0xBB] ∧
    ∃ k : Nat, ([0x17, 0x03, 0x03, 0x00, 0x02, 0xAA, 0xBB] : List U8).length =
        ([0xAA, 0xBB] : List U8).length + 5 * k ∧
      ([0xAA, 0xBB] : List U8).length ≤ 16384 * k ∧
      ([0xAA, 0xBB] : List U8).length ≤
        ([0x17, 0x03, 0x03, 0x00, 0x02, 0xAA, 0xBB] : List U8).length ∧
      (k = 0 → ([0x17, 0x03, 0x03, 0x00, 0x02, 0xAA, 0xBB] : List U8) = []) :=
  have ha : unwrap_all [0x17, 0x03, 0x03, 0x00, 0x02, 0xAA, 0xBB] = some [0xAA, 0xBB] := by
    have h := unwrap_all_record [0xAA, 0xBB] [] (by decide)
    rw [unwrap_all_nil] at h
    exact h
  ⟨ha, unwrap_all_size _ _ ha⟩

end veil.protocol_wrapper

/-! # Theorems about the order of versions -/

namespace veil.updater

theorem string_lt_irrefl (a : List Char) : string_lt a a = false := by
  induction a with
  | nil => rfl
  | cons x xs ih =>
    unfold string_lt
    rw [if_neg (lt_irrefl x), if_neg (lt_irrefl x)]
    exact ih

theorem string_lt_cons (x y : Char) (xs ys : List Char) :
    string_lt (x :: xs) (y :: ys) = true ↔ x < y ∨ (x = y ∧ string_lt xs ys = true) := by
  rw [string_lt]
  by_cases h1 : x < y
  · rw [if_pos h1]
    exact ⟨fun _ => Or.inl h1, fun _ => rfl⟩
  · rw [if_neg h1]
    by_cases h2 : y < x
    · rw [if_pos h2]
      constructor
      · intro h
        exact absurd h (by simp)
      · rintro (h | ⟨h, _⟩)
        · exact absurd h h1
        · rw [h] at h2
          exact absurd h2 (lt_irrefl y)
    · rw [if_neg h2]
      have he : x = y := le_antisymm (not_lt.mp h2) (not_lt.mp h1)
      constructor
      · intro h
        exact Or.inr ⟨he, h⟩
      · rintro (h | ⟨_, h⟩)
        · exact absurd h h1
        · exact h

theorem string_lt_trans : ∀ (a b c : List Char),
    string_lt a b = true → string_lt b c = true → string_lt a c = true := by
  intro a
  induction a with
  | nil =>
    intro b c h1 h2
    cases b with
    | nil => exact absurd h1 (by simp [string_lt])
    | cons y ys =>
      cases c with
      | nil => exact absurd h2 (by simp [string_lt])
      | cons z zs => rfl
  | cons x xs ih =>
    intro b c h1 h2
    cases b with
    | nil => exact absurd h1 (by simp [string_lt])
    | cons y ys =>
      cases c with
      | nil => exact absurd h2 (by simp [string_lt])
      | cons z zs =>
        rw [string_lt_cons] at h1 h2 ⊢
        rcases h1 with h1 | ⟨e1, h1⟩
        · rcases h2 with h2 | ⟨e2, _⟩
          · exact Or.inl (lt_trans h1 h2)
          · exact Or.inl (e2 ▸ h1)
        · rcases h2 with h2 | ⟨e2, h2⟩
          · exact Or.inl (e1 ▸ h2)
          · exact Or.inr ⟨e1.trans e2, ih ys zs h1 h2⟩

theorem string_lt_connected : ∀ (a b : List Char),
    string_lt a b = false → string_lt b a = false → a = b := by
  intro a
  induction a with
  | nil =>
    intro b h1 _
    cases b with
    | nil => rfl
    | cons y ys => exact absurd h1 (by simp [string_lt])
  | cons x xs ih =>
    intro b h1 h2
    cases b with
    | nil => exact absurd h2 (by simp [string_lt])
    | cons y ys =>
      have n1 : ¬ (x < y ∨ (x = y ∧ string_lt xs ys = true)) := by
        rw [← string_lt_cons, h1]
        simp
      have n2 : ¬ (y < x ∨ (y = x ∧ string_lt ys xs = true)) := by
        rw [← string_lt_cons, h2]
        simp
      have he : x = y :=
        le_antisymm (not_lt.mp (fun h => n2 (Or.inl h))) (not_lt.mp (fun h => n1 (Or.inl h)))
      have t1 : string_lt xs ys = false := by
        cases hs : string_lt xs ys with
        | false => rfl
        | true => exact absurd (Or.inr ⟨he, hs⟩) n1
      have t2 : string_lt ys xs = false := by
        cases hs : string_lt ys xs with
        | false => rfl
        | true => exact absurd (Or.inr ⟨he.symm, hs⟩) n2
      rw [he, ih ys t1 t2]

/-- The comparison `string_lt` is the lexicographic order of lists of
characters. -/
theorem string_lt_iff_lex : ∀ (a b : List Char),
    string_lt a b = true ↔ List.Lex (fun x y : Char => x < y) a b := by
  intro a
  induction a with
  | nil =>
    intro b
    cases b with
    | nil =>
      constructor
      · intro h
        exact absurd h (by simp [string_lt])
      · intro h
        cases h
    | cons y ys => exact ⟨fun _ => List.Lex.nil, fun _ => rfl⟩
  | cons x xs ih =>
    intro b
    cases b with
    | nil =>
      constructor
      · intro h
        exact absurd h (by simp [string_lt])
      · intro h
        cases h
    | cons y ys =>
      rw [string_lt_cons]
      constructor
      · rintro (h | ⟨he, h⟩)
        · exact List.Lex.rel h
        · rw [he]
          exact List.Lex.cons ((ih ys).mp h)
      · intro h
        cases h with
        | cons ht => exact Or.inr ⟨rfl, (ih _).mpr ht⟩
        | rel hxy => exact Or.inl hxy

/-- The last three branches of `Version::operator<`, on the prerelease
strings. -/
theorem prerelease_branch (p q : List Char) :
    (if p.isEmpty && !q.isEmpty then false
      else if !p.isEmpty && q.isEmpty then true
      else string_lt p q) = true ↔
      p ≠ [] ∧ (q = [] ∨ string_lt p q = true) := by
  cases p with
  | nil =>
    cases q with
    | nil => simp [string_lt]
    | cons y ys => simp
  | cons x xs =>
    cases q with
    | nil => simp
    | cons y ys => simp

/-- The comparison `Version::operator<` as a lexicographic comparison. -/
theorem version_lt_iff (a b : Version) :
    a.lt b = true ↔
      a.major < b.major ∨ (a.major = b.major ∧
        (a.minor < b.minor ∨ (a.minor = b.minor ∧
          (a.patch < b.patch ∨ (a.patch = b.patch ∧
            (a.prerelease ≠ [] ∧
              (b.prerelease = [] ∨ string_lt a.prerelease b.prerelease = true))))))) := by
  unfold Version.lt
  by_cases h1 : a.major = b.major
  · rw [if_neg (not_not.mpr h1)]
    by_cases h2 : a.minor = b.minor
    · rw [if_neg (not_not.mpr h2)]
      by_cases h3 : a.patch = b.patch
      · rw [if_neg (not_not.mpr h3), prerelease_branch]
        constructor
        · intro h
          exact Or.inr ⟨h1, Or.inr ⟨h2, Or.inr ⟨h3, h⟩⟩⟩
        · rintro (h | ⟨_, h | ⟨_, h | ⟨_, h⟩⟩⟩)
          · omega
          · omega
          · omega
          · exact h
      · rw [if_pos h3, decide_eq_true_iff]
        constructor
        · intro h
          exact Or.inr ⟨h1, Or.inr ⟨h2, Or.inl h⟩⟩
        · rintro (h | ⟨_, h | ⟨_, h | ⟨h, _⟩⟩⟩)
          · omega
          · omega
          · exact h
          · exact absurd h h3
    · rw [if_pos h2, decide_eq_true_iff]
      constructor
      · intro h
        exact Or.inr ⟨h1, Or.inl h⟩
      · rintro (h | ⟨_, h | ⟨h, _⟩⟩)
        · omega
        · exact h
        · exact absurd h h2
  · rw [if_pos h1, decide_eq_true_iff]
    constructor
    · intro h
      exact Or.inl h
    · rintro (h | ⟨h, _⟩)
      · exact h
      · exact absurd h h1

theorem lex_step_trans {x y z : Int} {A B C : Prop} (h1 : x < y ∨ (x = y ∧ A))
    (h2 : y < z ∨ (y = z ∧ B)) (hC : A → B → C) : x < z ∨ (x = z ∧ C) := by
  rcases h1 with h1 | ⟨e1, hA⟩
  · rcases h2 with h2 | ⟨e2, _⟩
    · exact Or.inl (by omega)
    · exact Or.inl (by omega)
  · rcases h2 with h2 | ⟨e2, hB⟩
    · exact Or.inl (by omega)
    · exact Or.inr ⟨by omega, hC hA hB⟩

theorem version_lt_irrefl (a : Version) : a.lt a = false := by
  cases h : a.lt a with
  | false => rfl
  | true =>
    rw [version_lt_iff] at h
    rcases h with h | ⟨_, h | ⟨_, h | ⟨_, hne, h | h⟩⟩⟩
    · omega
    · omega
    · omega
    · exact absurd h hne
    · rw [string_lt_irrefl] at h
      exact absurd h (by simp)

theorem version_lt_trans (a b c : Version) (h1 : a.lt b = true) (h2 : b.lt c = true) :
    a.lt c = true := by
  rw [version_lt_iff] at h1 h2 ⊢
  refine lex_step_trans h1 h2 (fun h1 h2 => lex_step_trans h1 h2 (fun h1 h2 =>
    lex_step_trans h1 h2 ?_))
  rintro ⟨hane, ha⟩ ⟨hbne, hb⟩
  refine ⟨hane, ?_⟩
  rcases ha with ha | ha
  · exact absurd ha hbne
  · rcases hb with hb | hb
    · exact Or.inl hb
    · exact Or.inr (string_lt_trans _ _ _ ha hb)

theorem version_eq_iff (a b : Version) : a.eq b = true ↔ a = b := by
  cases a
  cases b
  simp [Version.eq, and_assoc]

theorem version_lt_connected (a b : Version) (h1 : a.lt b = false) (h2 : b.lt a = false) :
    a = b := by
  have n1 : ¬ a.lt b = true := by rw [h1]; simp
  have n2 : ¬ b.lt a = true := by rw [h2]; simp
  rw [version_lt_iff] at n1 n2
  have e1 : a.major = b.major := by
    by_contra hne
    rcases lt_or_gt_of_ne hne with h | h
    · exact n1 (Or.inl h)
    · exact n2 (Or.inl h)
  have e2 : a.minor = b.minor := by
    by_contra hne
    rcases lt_or_gt_of_ne hne with h | h
    · exact n1 (Or.inr ⟨e1, Or.inl h⟩)
    · exact n2 (Or.inr ⟨e1.symm, Or.inl h⟩)
  have e3 : a.patch = b.patch := by
    by_contra hne
    rcases lt_or_gt_of_ne hne with h | h
    · exact n1 (Or.inr ⟨e1, Or.inr ⟨e2, Or.inl h⟩⟩)
    · exact n2 (Or.inr ⟨e1.symm, Or.inr ⟨e2.symm, Or.inl h⟩⟩)
  have m1 : ¬ (a.prerelease ≠ [] ∧
      (b.prerelease = [] ∨ string_lt a.prerelease b.prerelease = true)) :=
    fun h => n1 (Or.inr ⟨e1, Or.inr ⟨e2, Or.inr ⟨e3, h⟩⟩⟩)
  have m2 : ¬ (b.prerelease ≠ [] ∧
      (a.prerelease = [] ∨ string_lt b.prerelease a.prerelease = true)) :=
    fun h => n2 (Or.inr ⟨e1.symm, Or.inr ⟨e2.symm, Or.inr ⟨e3.symm, h⟩⟩⟩)
  have e4 : a.prerelease = b.prerelease := by
    by_cases ha : a.prerelease = []
    · by_cases hb : b.prerelease = []
      · rw [ha, hb]
      · exact absurd ⟨hb, Or.inl ha⟩ m2
    · by_cases hb : b.prerelease = []
      · exact absurd ⟨ha, Or.inl hb⟩ m1
      · apply string_lt_connected
        · cases hs : string_lt a.prerelease b.prerelease with
          | false => rfl
          | true => exact absurd ⟨ha, Or.inr hs⟩ m1
        · cases hs : string_lt b.prerelease a.prerelease with
          | false => rfl
          | true => exact absurd ⟨hb, Or.inr hs⟩ m2
  cases a
  cases b
  simp only [Version.mk.injEq]
  exact ⟨e1, e2, e3, e4⟩

/-- C26: `Version::operator<` is a strict total order that is consistent with
`Version::operator==`: it is irreflexive and transitive; for all versions `a`
and `b` exactly one of `a < b`, `a == b`, `b < a` holds; and `a == b` holds
exactly when the two versions are equal. -/
theorem version_lt_strict_total_order (a b c : Version) :
    a.lt a = false ∧
    (a.lt b = true → b.lt c = true → a.lt c = true) ∧
    ((a.lt b = true ∧ a.eq b = false ∧ b.lt a = false) ∨
      (a.lt b = false ∧ a.eq b = true ∧ b.lt a = false) ∨
      (a.lt b = false ∧ a.eq b = false ∧ b.lt a = true)) ∧
    (a.eq b = true ↔ a = b) := by
  refine ⟨version_lt_irrefl a, version_lt_trans a b c, ?_, version_eq_iff a b⟩
  have hne : ∀ x y : Version, x.lt y = true → x.eq y = false := by
    intro x y hxy
    cases he : x.eq y with
    | false => rfl
    | true =>
      rw [(version_eq_iff x y).mp he, version_lt_irrefl] at hxy
      exact absurd hxy (by simp)
  have hasymm : ∀ x y : Version, x.lt y = true → y.lt x = false := by
    intro x y hxy
    cases hyx : y.lt x with
    | false => rfl
    | true =>
      have h := version_lt_trans x y x hxy hyx
      rw [version_lt_irrefl] at h
      exact absurd h (by simp)
  cases hab : a.lt b with
  | true => exact Or.inl ⟨rfl, hne a b hab, hasymm a b hab⟩
  | false =>
    cases hba : b.lt a with
    | true =>
      have he : a.eq b = false := by
        cases he : a.eq b with
        | false => rfl
        | true =>
          rw [(version_eq_iff a b).mp he, version_lt_irrefl] at hba
          exact absurd hba (by simp)
      exact Or.inr (Or.inr ⟨rfl, he, rfl⟩)
    | false =>
      exact Or.inr (Or.inl ⟨rfl, (version_eq_iff a b).mpr (version_lt_connected a b hab hba),
        rfl⟩)

/-- Witness for C26: `1.0.0-rc < 1.0.0 < 1.0.1`. -/
theorem version_lt_strict_total_order_witness :
    Version.lt ⟨1, 0, 0, ['r', 'c']⟩ ⟨1, 0, 0, []⟩ = true ∧
    Version.lt ⟨1, 0, 0, []⟩ ⟨1, 0, 1, []⟩ = true ∧
    Version.lt ⟨1, 0, 0, ['r', 'c']⟩ ⟨1, 0, 1, []⟩ = true :=
  ⟨rfl, rfl,
    (version_lt_strict_total_order ⟨1, 0, 0, ['r', 'c']⟩ ⟨1, 0, 0, []⟩ ⟨1, 0, 1, []⟩).2.1
      rfl rfl⟩

/-- C27: between two prerelease versions with equal major, minor and patch and
both prerelease strings non-empty, `a < b` holds if and only if `a.prerelease`
is strictly smaller than `b.prerelease` in the character-wise lexicographic
order. There is no numeric comparison of dotted identifiers: the prerelease
`beta.10` comes before `beta.2`. -/
theorem version_lt_prerelease_lex (a b : Version) (h1 : a.major = b.major)
    (h2 : a.minor = b.minor) (h3 : a.patch = b.patch) (ha : a.prerelease ≠ [])
    (hb : b.prerelease ≠ []) :
    (a.lt b = true ↔ List.Lex (fun x y : Char => x < y) a.prerelease b.prerelease) ∧
    Version.lt ⟨1, 2, 3, "beta.10".toList⟩ ⟨1, 2, 3, "beta.2".toList⟩ = true ∧
    Version.lt ⟨1, 2, 3, "beta.2".toList⟩ ⟨1, 2, 3, "beta.10".toList⟩ = false := by
  refine ⟨?_, rfl, rfl⟩
  rw [← string_lt_iff_lex, version_lt_iff]
  constructor
  · rintro (h | ⟨_, h | ⟨_, h | ⟨_, _, h | h⟩⟩⟩)
    · omega
    · omega
    · omega
    · exact absurd h hb
    · exact h
  · intro h
    exact Or.inr ⟨h1, Or.inr ⟨h2, Or.inr ⟨h3, ha, Or.inr h⟩⟩⟩

/-- Witness for C27: `1.2.3-alpha` against `1.2.3-beta`. -/
theorem version_lt_prerelease_lex_witness :
    Version.lt ⟨1, 2, 3, ['a', 'l', 'p', 'h', 'a']⟩ ⟨1, 2, 3, ['b', 'e', 't', 'a']⟩ = true ↔
      List.Lex (fun x y : Char => x < y) ['a', 'l', 'p', 'h', 'a'] ['b', 'e', 't', 'a'] :=
  (version_lt_prerelease_lex ⟨1, 2, 3, ['a', 'l', 'p', 'h', 'a']⟩ ⟨1, 2, 3, ['b', 'e', 't', 'a']⟩
    rfl rfl rfl (by decide) (by decide)).1

end veil.updater

/-! # Theorems about `find_installer` and the update decision -/

namespace veil.updater

theorem starts_with_iff : ∀ (text pattern : List Char),
    starts_with text pattern = true ↔ pattern <+: text := by
  intro text
  induction text with
  | nil =>
    intro pattern
    cases pattern with
    | nil => simp [starts_with]
    | cons y ys => simp [starts_with]
  | cons x xs ih =>
    intro pattern
    cases pattern with
    | nil => simp [starts_with]
    | cons y ys =>
      simp only [starts_with, Bool.and_eq_true, beq_iff_eq, ih]
      constructor
      · rintro ⟨h1, h2⟩
        rw [h1]
        exact (List.prefix_cons_inj y).mpr h2
      · intro h
        have h' := List.cons_prefix_cons.mp h
        exact ⟨h'.1.symm, h'.2⟩

/-- The call `text.find(pattern) != std::string::npos` tells whether `pattern`
occurs in `text`. -/
theorem string_find_isSome_iff : ∀ (text pattern : List Char),
    (string_find text pattern).isSome = true ↔ pattern <:+: text := by
  intro text
  induction text with
  | nil =>
    intro pattern
    unfold string_find
    by_cases h : starts_with [] pattern = true
    · rw [if_pos h]
      have hp := (starts_with_iff [] pattern).mp h
      exact ⟨fun _ => hp.isInfix, fun _ => rfl⟩
    · rw [if_neg h]
      constructor
      · intro hc
        exact absurd hc (by simp)
      · intro hi
        exfalso
        apply h
        rw [starts_with_iff]
        rw [List.infix_nil.mp hi]
  | cons x xs ih =>
    intro pattern
    unfold string_find
    by_cases h : starts_with (x :: xs) pattern = true
    · rw [if_pos h]
      have hp := (starts_with_iff (x :: xs) pattern).mp h
      exact ⟨fun _ => hp.isInfix, fun _ => rfl⟩
    · rw [if_neg h, Option.isSome_map', ih pattern, List.infix_cons_iff]
      constructor
      · intro hi
        exact Or.inr hi
      · rintro (hp | hi)
        · exact absurd ((starts_with_iff (x :: xs) pattern).mpr hp) h
        · exact hi

theorem some_pattern_found_iff (name_lower : List Char) : ∀ patterns : List (List Char),
    some_pattern_found name_lower patterns = true ↔ ∃ p ∈ patterns, p <:+: name_lower := by
  intro patterns
  induction patterns with
  | nil => simp [some_pattern_found]
  | cons p ps ih =>
    unfold some_pattern_found
    by_cases h : (string_find name_lower p).isSome = true
    · rw [if_pos h]
      exact ⟨fun _ => ⟨p, List.mem_cons_self p ps, (string_find_isSome_iff _ _).mp h⟩,
        fun _ => rfl⟩
    · rw [if_neg h, ih]
      constructor
      · rintro ⟨q, hq, hi⟩
        exact ⟨q, List.mem_cons_of_mem p hq, hi⟩
      · rintro ⟨q, hq, hi⟩
        rcases List.mem_cons.mp hq with he | hm
        · rw [he] at hi
          exact absurd ((string_find_isSome_iff _ _).mpr hi) h
        · exact ⟨q, hm, hi⟩

/-- The test that the body of the outer loop of `find_installer` performs on an
asset is the reference description of a Windows installer. -/
theorem installer_test_iff (asset : ReleaseAsset) :
    (¬ ((string_find (asset.name.map tolower) ("linux".toList)).isSome ||
          (string_find (asset.name.map tolower) ("macos".toList)).isSome ||
          (string_find (asset.name.map tolower) ("darwin".toList)).isSome) = true ∧
      some_pattern_found (asset.name.map tolower)
        [".exe".toList, ".msi".toList, "-setup".toList, "-win64".toList] = true) ↔
      is_windows_installer asset := by
  have ht : asset.name.map tolower = asset.name.map Char.toLower := rfl
  unfold is_windows_installer
  rw [ht, some_pattern_found_iff]
  simp only [Bool.or_eq_true, string_find_isSome_iff, not_or, List.mem_cons,
    List.mem_singleton, List.not_mem_nil, or_false, exists_eq_or_imp, exists_eq_left, and_assoc]

theorem find_installer_loop_pos (asset : ReleaseAsset) (rest : List ReleaseAsset)
    (h : is_windows_installer asset) :
    find_installer_loop [".exe".toList, ".msi".toList, "-setup".toList, "-win64".toList]
      (asset :: rest) = some asset := by
  obtain ⟨h1, h2⟩ := (installer_test_iff asset).mpr h
  unfold find_installer_loop
  simp only []
  rw [if_neg h1, if_pos h2]

theorem find_installer_loop_neg (asset : ReleaseAsset) (rest : List ReleaseAsset)
    (h : ¬ is_windows_installer asset) :
    find_installer_loop [".exe".toList, ".msi".toList, "-setup".toList, "-win64".toList]
        (asset :: rest) =
      find_installer_loop [".exe".toList, ".msi".toList, "-setup".toList, "-win64".toList]
        rest := by
  have hn := fun hc => h ((installer_test_iff asset).mp hc)
  rw [find_installer_loop]
  split
  · rfl
  · rename_i h1
    split
    · rename_i h2
      exact absurd ⟨h1, h2⟩ hn
    · rfl

theorem find_installer_loop_some (assets : List ReleaseAsset) (a : ReleaseAsset) :
    find_installer_loop [".exe".toList, ".msi".toList, "-setup".toList, "-win64".toList]
        assets = some a ↔
      ∃ before after, assets = before ++ a :: after ∧ is_windows_installer a ∧
        ∀ b ∈ before, ¬ is_windows_installer b := by
  induction assets with
  | nil =>
    constructor
    · intro h
      exact absurd h (by simp [find_installer_loop])
    · rintro ⟨before, after, h, _⟩
      exact absurd h (by simp)
  | cons x rest ih =>
    by_cases hx : is_windows_installer x
    · rw [find_installer_loop_pos x rest hx]
      constructor
      · intro h
        simp only [Option.some.injEq] at h
        rw [← h]
        exact ⟨[], rest, rfl, hx, by simp⟩
      · rintro ⟨before, after, h, _, hb⟩
        cases before with
        | nil =>
          simp only [List.nil_append, List.cons.injEq] at h
          rw [h.1]
        | cons y ys =>
          simp only [List.cons_append, List.cons.injEq] at h
          rw [h.1] at hx
          exact absurd hx (hb y (List.mem_cons_self y ys))
    · rw [find_installer_loop_neg x rest hx, ih]
      constructor
      · rintro ⟨before, after, h, ha, hb⟩
        refine ⟨x :: before, after, by rw [h]; rfl, ha, ?_⟩
        intro b hm
        rcases List.mem_cons.mp hm with he | hm'
        · rw [he]
          exact hx
        · exact hb b hm'
      · rintro ⟨before, after, h, ha, hb⟩
        cases before with
        | nil =>
          simp only [List.nil_append, List.cons.injEq] at h
          rw [h.1] at hx
          exact absurd ha hx
        | cons y ys =>
          simp only [List.cons_append, List.cons.injEq] at h
          exact ⟨ys, after, h.2, ha, fun b hm => hb b (List.mem_cons_of_mem y hm)⟩

theorem find_installer_loop_none (assets : List ReleaseAsset) :
    find_installer_loop [".exe".toList, ".msi".toList, "-setup".toList, "-win64".toList]
        assets = none ↔
      ∀ a ∈ assets, ¬ is_windows_installer a := by
  induction assets with
  | nil => simp [find_installer_loop]
  | cons x rest ih =>
    by_cases hx : is_windows_installer x
    · rw [find_installer_loop_pos x rest hx]
      constructor
      · intro h
        exact absurd h (by simp)
      · intro h
        exact absurd hx (h x (List.mem_cons_self x rest))
    · rw [find_installer_loop_neg x rest hx, ih]
      constructor
      · intro h a hm
        rcases List.mem_cons.mp hm with he | hm'
        · rw [he]
          exact hx
        · exact h a hm'
      · intro h a hm
        exact h a (List.mem_cons_of_mem x hm)

/-- C22: `find_installer` looks for Windows installer assets and skips the
others. It returns the first asset, in the order of the list, whose lower-cased
name contains none of `linux`, `macos`, `darwin` and contains at least one of
`.exe`, `.msi`, `-setup`, `-win64`; it returns `std::nullopt` if and only if no
asset is such; and the asset it returns is an element of `assets`, unchanged. -/
theorem find_installer_spec (release : ReleaseInfo) :
    (∀ a : ReleaseAsset, release.find_installer = some a ↔
      ∃ before after, release.assets = before ++ a :: after ∧ is_windows_installer a ∧
        ∀ b ∈ before, ¬ is_windows_installer b) ∧
    (release.find_installer = none ↔ ∀ a ∈ release.assets, ¬ is_windows_installer a) ∧
    (∀ a : ReleaseAsset, release.find_installer = some a → a ∈ release.assets) := by
  refine ⟨fun a => find_installer_loop_some release.assets a,
    find_installer_loop_none release.assets, ?_⟩
  intro a h
  obtain ⟨before, after, hs, _⟩ := (find_installer_loop_some release.assets a).mp h
  rw [hs]
  simp

theorem find_version_iff (versions : List Version) (version : Version) :
    find_version versions version = true ↔ version ∈ versions := by
  induction versions with
  | nil => simp [find_version]
  | cons v rest ih =>
    unfold find_version
    by_cases h : v.eq version = true
    · rw [if_pos h]
      have he := (version_eq_iff v version).mp h
      rw [he]
      simp
    · rw [if_neg h, ih]
      have hne : ¬ v = version := fun he => h ((version_eq_iff v version).mpr he)
      constructor
      · intro hm
        exact List.mem_cons_of_mem v hm
      · intro hm
        rcases List.mem_cons.mp hm with he | hm'
        · exact absurd he.symm hne
        · exact hm'

/-- The update decision in closed form, with the comparison `operator>` spelled
out as `operator<` with the operands exchanged. -/
theorem check_for_updates_sync_eq (self : AutoUpdater) (macros : VersionMacros)
    (release : ReleaseInfo) (now : List Char) :
    self.check_for_updates_sync macros (some (release, now)) =
      if (release.prerelease = false ∨ self.config_.check_for_prereleases = true) ∧
          release.version ∉ self.ignored_versions_ ∧
          (current_version macros).lt release.version = true then
        (some release, { self with last_check_time := now, cached_release_ := some release })
      else (none, { self with last_check_time := now }) := by
  unfold AutoUpdater.check_for_updates_sync AutoUpdater.is_version_ignored
  simp only []
  by_cases h1 : (release.prerelease && !self.config_.check_for_prereleases) = true
  · rw [if_pos h1, if_neg]
    intro hc
    simp only [Bool.and_eq_true, Bool.not_eq_true'] at h1
    rcases hc.1 with h | h
    · rw [h] at h1
      exact absurd h1.1 (by simp)
    · rw [h] at h1
      exact absurd h1.2 (by simp)
  · rw [if_neg h1]
    have hp : release.prerelease = false ∨ self.config_.check_for_prereleases = true := by
      cases hr : release.prerelease with
      | false => exact Or.inl rfl
      | true =>
        cases hcfg : self.config_.check_for_prereleases with
        | true => exact Or.inr rfl
        | false =>
          rw [hr, hcfg] at h1
          exact absurd rfl h1
    by_cases h2 : find_version self.ignored_versions_ release.version = true
    · rw [if_pos h2, if_neg]
      intro hc
      exact hc.2.1 ((find_version_iff _ _).mp h2)
    · rw [if_neg h2]
      have hni : release.version ∉ self.ignored_versions_ :=
        fun hm => h2 ((find_version_iff _ _).mpr hm)
      have hgt : release.version.gt (current_version macros) =
          (current_version macros).lt release.version := by
        unfold Version.gt
        rfl
      rw [hgt]
      by_cases h3 : (current_version macros).lt release.version = true
      · rw [if_pos h3, if_pos ⟨hp, hni, h3⟩]
      · rw [if_neg h3, if_neg]
        intro hc
        exact h3 hc.2.2

/-- C21: the update decision. Given a release that was fetched and parsed,
`check_for_updates_sync` returns that release and stores it in
`cached_release_` if and only if the release is not flagged prerelease or
`check_for_prereleases` is set, its version is not in the ignored list, and
`current_version()` is less than its version in the order `operator<` of the
versions; in every other case it returns `std::nullopt` and leaves
`cached_release_` unchanged. -/
theorem update_decision (self : AutoUpdater) (macros : VersionMacros)
    (release : ReleaseInfo) (now : List Char) :
    (((self.check_for_updates_sync macros (some (release, now))).1 = some release ∧
        (self.check_for_updates_sync macros (some (release, now))).2.cached_release_ =
          some release) ↔
      ((release.prerelease = false ∨ self.config_.check_for_prereleases = true) ∧
        release.version ∉ self.ignored_versions_ ∧
        (current_version macros).lt release.version = true)) ∧
    (¬ ((release.prerelease = false ∨ self.config_.check_for_prereleases = true) ∧
        release.version ∉ self.ignored_versions_ ∧
        (current_version macros).lt release.version = true) →
      (self.check_for_updates_sync macros (some (release, now))).1 = none ∧
      (self.check_for_updates_sync macros (some (release, now))).2.cached_release_ =
        self.cached_release_) := by
  rw [check_for_updates_sync_eq]
  by_cases hc : (release.prerelease = false ∨ self.config_.check_for_prereleases = true) ∧
      release.version ∉ self.ignored_versions_ ∧
      (current_version macros).lt release.version = true
  · rw [if_pos hc]
    exact ⟨⟨fun _ => hc, fun _ => ⟨rfl, rfl⟩⟩, fun hn => absurd hc hn⟩
  · rw [if_neg hc]
    refine ⟨⟨fun h => ?_, fun h => absurd h hc⟩, fun _ => ⟨rfl, rfl⟩⟩
    exact absurd h.1 (by simp)

/-- Witness for C21, with the current version 1.0.0 and no prerelease flag.
The release 1.1.0 is returned and cached when nothing is ignored. The release
0.9.0, which is older, and the release 1.0.0, which is the current version, are
not returned, and neither is the release 1.1.0 when 1.1.0 is in the ignored
list; in these three cases the cached release stays as it was. -/
theorem update_decision_witness :
    (((false : Bool) = false ∨ (false : Bool) = true) ∧
      (⟨1, 1, 0, []⟩ : Version) ∉ ([] : List Version) ∧
      Version.lt (current_version ⟨1, 0, 0, []⟩) ⟨1, 1, 0, []⟩ = true) ∧
    ((AutoUpdater.check_for_updates_sync ⟨⟨false⟩, [], none, []⟩ ⟨1, 0, 0, []⟩
        (some (⟨[], [], [], [], [], false, false, ⟨1, 1, 0, []⟩, []⟩, []))).1 =
        some ⟨[], [], [], [], [], false, false, ⟨1, 1, 0, []⟩, []⟩ ∧
      (AutoUpdater.check_for_updates_sync ⟨⟨false⟩, [], none, []⟩ ⟨1, 0, 0, []⟩
        (some (⟨[], [], [], [], [], false, false, ⟨1, 1, 0, []⟩, []⟩, []))).2.cached_release_ =
        some ⟨[], [], [], [], [], false, false, ⟨1, 1, 0, []⟩, []⟩) ∧
    (¬ Version.lt (current_version ⟨1, 0, 0, []⟩) ⟨0, 9, 0, []⟩ = true ∧
      (AutoUpdater.check_for_updates_sync ⟨⟨false⟩, [], none, []⟩ ⟨1, 0, 0, []⟩
        (some (⟨[], [], [], [], [], false, false, ⟨0, 9, 0, []⟩, []⟩, []))).1 = none ∧
      (AutoUpdater.check_for_updates_sync ⟨⟨false⟩, [], none, []⟩ ⟨1, 0, 0, []⟩
        (some (⟨[], [], [], [], [], false, false, ⟨0, 9, 0, []⟩, []⟩, []))).2.cached_release_ =
        none) ∧
    (¬ Version.lt (current_version ⟨1, 0, 0, []⟩) ⟨1, 0, 0, []⟩ = true ∧
      (AutoUpdater.check_for_updates_sync ⟨⟨false⟩, [], none, []⟩ ⟨1, 0, 0, []⟩
        (some (⟨[], [], [], [], [], false, false, ⟨1, 0, 0, []⟩, []⟩, []))).1 = none ∧
      (AutoUpdater.check_for_updates_sync ⟨⟨false⟩, [], none, []⟩ ⟨1, 0, 0, []⟩
        (some (⟨[], [], [], [], [], false, false, ⟨1, 0, 0, []⟩, []⟩, []))).2.cached_release_ =
        none) ∧
    (¬ (⟨1, 1, 0, []⟩ : Version) ∉ [(⟨1, 1, 0, []⟩ : Version)] ∧
      (AutoUpdater.check_for_updates_sync ⟨⟨false⟩, [⟨1, 1, 0, []⟩], none, []⟩ ⟨1, 0, 0, []⟩
        (some (⟨[], [], [], [], [], false, false, ⟨1, 1, 0, []⟩, []⟩, []))).1 = none ∧
      (AutoUpdater.check_for_updates_sync ⟨⟨false⟩, [⟨1, 1, 0, []⟩], none, []⟩ ⟨1, 0, 0, []⟩
        (some (⟨[], [], [], [], [], false, false, ⟨1, 1, 0, []⟩, []⟩, []))).2.cached_release_ =
        none) :=
  have hnewer : ((false : Bool) = false ∨ (false : Bool) = true) ∧
      (⟨1, 1, 0, []⟩ : Version) ∉ ([] : List Version) ∧
      Version.lt (current_version ⟨1, 0, 0, []⟩) ⟨1, 1, 0, []⟩ = true :=
    ⟨Or.inl rfl, List.not_mem_nil _, by decide⟩
  have holder : ¬ Version.lt (current_version ⟨1, 0, 0, []⟩) ⟨0, 9, 0, []⟩ = true := by decide
  have hsame : ¬ Version.lt (current_version ⟨1, 0, 0, []⟩) ⟨1, 0, 0, []⟩ = true := by decide
  have hignored : ¬ (⟨1, 1, 0, []⟩ : Version) ∉ [(⟨1, 1, 0, []⟩ : Version)] :=
    fun h => h (List.mem_singleton.mpr rfl)
  ⟨hnewer,
    (update_decision ⟨⟨false⟩, [], none, []⟩ ⟨1, 0, 0, []⟩
      ⟨[], [], [], [], [], false, false, ⟨1, 1, 0, []⟩, []⟩ []).1.mpr hnewer,
    ⟨holder, (update_decision ⟨⟨false⟩, [], none, []⟩ ⟨1, 0, 0, []⟩
      ⟨[], [], [], [], [], false, false, ⟨0, 9, 0, []⟩, []⟩ []).2 (fun h => holder h.2.2)⟩,
    ⟨hsame, (update_decision ⟨⟨false⟩, [], none, []⟩ ⟨1, 0, 0, []⟩
      ⟨[], [], [], [], [], false, false, ⟨1, 0, 0, []⟩, []⟩ []).2 (fun h => hsame h.2.2)⟩,
    ⟨hignored, (update_decision ⟨⟨false⟩, [⟨1, 1, 0, []⟩], none, []⟩ ⟨1, 0, 0, []⟩
      ⟨[], [], [], [], [], false, false, ⟨1, 1, 0, []⟩, []⟩ []).2 (fun h => hignored h.2.1)⟩⟩

end veil.updater
